import Mathlib

/-!
Shallow embedding of the Player Isolation engine (src/game.cc) and proofs about
its specification claims.

The game is played on a 7x7 linear array of 49 cells whose outer ring holds the
BORDER sentinel; the inner 5x5 region (rows and columns 1..5 of the 7-wide
layout) is playable.  The C++ `char board[49]` array is modelled as a total
function `Int → Nat`; indices outside `[0, 48]` do not exist in the source
array, and the model maps them to the BORDER sentinel (the source's own
"out of valid board range" value), which is exactly how the sentinel ring makes
them behave: no ray walk or neighbour probe ever reads them as EMPTY.

Imperative loops are modelled by structural recursion on an explicit fuel
argument.  Fuel values are chosen so that they can never be exhausted on the
boards the theorems quantify over (a ray from a playable cell meets the
sentinel ring after at most five steps, so 49 is ample; the flood-fill queue
processes at most 26 cells, so 50 is ample); the main recursion of `negamax`
descends `max_depth - depth` levels, so `fuel = max_depth - depth` and the
source's `depth == max_depth` horizon test becomes `fuel = 0`.
-/

/-- Value to mark that the cell is out of valid board range (src/game.cc:21). -/
def BORDER : Nat := 5

/-- Value to mark that the cell is empty (src/game.cc:24). -/
def EMPTY : Nat := 0

/-- Value to mark that the cell is occupied by player one (src/game.cc:27). -/
def P1 : Nat := 1

/-- Value to mark that the cell is occupied by player two (src/game.cc:30). -/
def P2 : Nat := 2

/-- Loss score constant (src/game.cc:32). -/
def LOSS_VALUE : Int := -1000

/-- Win score constant (src/game.cc:33, unused by the search itself). -/
def WIN_VALUE : Int := 1000

/-- Infinity bound for the alpha-beta window (src/game.cc:34). -/
def INF : Int := 1000000

/-- The eight ray directions as offsets in the 7-wide linear layout
(src/game.cc:35). -/
def MOVES : List Int := [1, -1, 7, -7, 6, -6, 8, -8]

/-- Weight of one reachable cell in the flood-fill score (src/game.cc:36). -/
def SCORE_PER_CELL : Int := 16

/-- OPPONENT macro (src/game.cc:39). -/
def OPPONENT (p : Nat) : Nat := if p = P1 then P2 else P1

/-- XY_TO_POS macro (src/game.cc:43): inner coordinates to linear index. -/
def XY_TO_POS (x y : Int) : Int := x * 7 + y + 8

/-- POS_TO_X macro (src/game.cc:41); C integer division truncates toward zero,
hence `Int.tdiv`. -/
def POS_TO_X (pos : Int) : Int := (pos - 8).tdiv 7

/-- POS_TO_Y macro (src/game.cc:42); C `%` pairs with truncating division,
hence `Int.tmod`. -/
def POS_TO_Y (pos : Int) : Int := (pos - 8).tmod 7

/-- The board: the 49-cell array (as a total function on `Int`, see the header
note) plus the two stored player positions (src/game.cc:46-58). -/
structure Board where
  board : Int → Nat
  p1 : Int
  p2 : Int

/-- The Board constructor (src/game.cc:60-70): sentinel ring, empty inner 5x5
region, both positions 0.  A linear index `i ∈ [0, 48]` has row `i.tdiv 7` and
column `i.tmod 7`; the cell is playable (EMPTY) iff both lie in `[1, 5]`.
Indices outside the array are mapped to BORDER (see the header note). -/
def Board.init : Board where
  board := fun i =>
    if 1 ≤ i.tdiv 7 ∧ i.tdiv 7 ≤ 5 ∧ 1 ≤ i.tmod 7 ∧ i.tmod 7 ≤ 5 ∧ 0 ≤ i then EMPTY else BORDER
  p1 := 0
  p2 := 0

/-- A single cell store `board[pos] = v`, used by the search to make and undo
speculative moves (src/game.cc:262, 264). -/
def Board.setCell (b : Board) (pos : Int) (v : Nat) : Board :=
  { b with board := fun j => if j = pos then v else b.board j }

/-- Board::isLegal (src/game.cc:72-74). -/
def Board.isLegal (b : Board) (x y : Int) : Bool := b.board (x * 7 + y + 8) == EMPTY

/-- Board::play (src/game.cc:76-83). -/
def Board.play (b : Board) (x y : Int) (player : Nat) : Board :=
  { board := fun j => if j = x * 7 + y + 8 then player else b.board j
    p1 := if player = P1 then x * 7 + y + 8 else b.p1
    p2 := if player = P1 then b.p2 else x * 7 + y + 8 }

/-- Board::hasLost (src/game.cc:104-110). -/
def Board.hasLost (b : Board) (i : Int) : Bool :=
  if i = 0 then false
  else if b.board (i + 1) = 0 ∨ b.board (i - 1) = 0 ∨ b.board (i + 7) = 0 ∨
          b.board (i - 7) = 0 ∨ b.board (i + 6) = 0 ∨ b.board (i - 6) = 0 ∨
          b.board (i + 8) = 0 ∨ b.board (i - 8) = 0 then false
  else true

/-- Mirror::getMove (src/game.cc:120-128): reflect the opponent's position
through the centre of the 5x5 playable area; the depth argument is unused. -/
def Mirror.getMove (b : Board) (player : Nat) (max_depth : Nat) : Int :=
  let _ := max_depth
  let pp := if player = P1 then b.p2 else b.p1
  XY_TO_POS (4 - POS_TO_X pp) (4 - POS_TO_Y pp)

/-- State of the flood-fill loop in DijkstraScorer::dijkstra
(src/game.cc:146-181): the FIFO queue, the `steps` array (as a total function,
`-1` meaning unassigned), and the two running totals. -/
structure DState where
  q : List Int
  steps : Int → Int
  total_cells : Int
  total_steps : Int

/-- The inner ray walk of DijkstraScorer::dijkstra (src/game.cc:164-176):
starting one step from `pos`, walk in direction `move` while the cell is EMPTY
and not yet assigned, assigning `step` and enqueueing each newly discovered
cell.  The walk stops at the first non-EMPTY or already-assigned cell; fuel 49
exceeds the length of any ray inside the sentinel ring. -/
def dijkstraRay (b : Board) (move step : Int) :
    Nat → Int → (Int → Int) → List Int → ((Int → Int) × List Int)
  | 0, _, steps, q => (steps, q)
  | fuel + 1, pos, steps, q =>
    let p := pos + move
    if b.board p ≠ EMPTY then (steps, q)
    else if steps p ≠ -1 then (steps, q)
    else dijkstraRay b move step fuel p (fun j => if j = p then step else steps j) (q ++ [p])

/-- The `for` loop over the eight directions in DijkstraScorer::dijkstra
(src/game.cc:162-177). -/
def dijkstraDirs (b : Board) (step pos : Int) :
    List Int → (Int → Int) → List Int → ((Int → Int) × List Int)
  | [], steps, q => (steps, q)
  | m :: ms, steps, q =>
    let r := dijkstraRay b m step 49 pos steps q
    dijkstraDirs b step pos ms r.1 r.2

/-- The `while (!q.empty())` loop of DijkstraScorer::dijkstra
(src/game.cc:157-178): pop the front cell, add its recorded distance and one
cell to the totals, and expand its eight rays.  Fuel 50 exceeds the number of
iterations possible on any well-formed board (at most 26 cells are ever
enqueued, each exactly once). -/
def dijkstraLoop (b : Board) : Nat → DState → DState
  | 0, st => st
  | fuel + 1, st =>
    match st.q with
    | [] => st
    | pos :: rest =>
      let r := dijkstraDirs b (st.steps pos + 1) pos MOVES st.steps rest
      dijkstraLoop b fuel ⟨r.2, r.1, st.total_cells + 1, st.total_steps + st.steps pos⟩

/-- The full flood fill of DijkstraScorer::dijkstra (src/game.cc:146-156):
initial state has the player's position enqueued with distance 0 and every
other cell unassigned. -/
def dijkstraRun (b : Board) (player : Nat) : DState :=
  let pos := if player = P1 then b.p1 else b.p2
  dijkstraLoop b 50 ⟨[pos], fun j => if j = pos then 0 else -1, 0, 0⟩

/-- DijkstraScorer::dijkstra's return value (src/game.cc:180). -/
def DijkstraScorer.dijkstra (b : Board) (player : Nat) : Int :=
  (dijkstraRun b player).total_cells * SCORE_PER_CELL - (dijkstraRun b player).total_steps

/-- DijkstraScorer::getScore (src/game.cc:142-144). -/
def DijkstraScorer.getScore (b : Board) (player : Nat) : Int :=
  DijkstraScorer.dijkstra b player - DijkstraScorer.dijkstra b (OPPONENT player)

/-- Loop state of one Negamax::negamax activation (src/game.cc:249-251 and the
mutated board): running best score, the (raised) alpha, the best move written
so far to the out-parameter, and the current board. -/
structure NSt where
  best : Int
  alpha : Int
  bm : Int
  b : Board

/-- The inner `while (true)` ray loop of Negamax::negamax
(src/game.cc:255-276), with the recursive call abstracted as `f` (it receives
the board with the candidate cell occupied, the candidate position, and the
current alpha, and returns the child's value and board).  After the child
returns, the candidate cell is restored to EMPTY; on `alpha >= beta` the whole
function returns `best_score` (modelled by `Sum.inr` carrying value, best move
and board). -/
def negaRay (f : Board → Int → Int → Int × Board) (player : Nat) (beta : Int) :
    Nat → Int → Int → NSt → NSt ⊕ (Int × Int × Board)
  | 0, _, _, st => Sum.inl st
  | fuel + 1, pos0, move, st =>
    let pos := pos0 + move
    if st.b.board pos ≠ EMPTY then Sum.inl st
    else
      let r := f (st.b.setCell pos player) pos st.alpha
      let score := -1 * r.1
      let b2 := r.2.setCell pos EMPTY
      let best2 := if score > st.best then score else st.best
      let bm2 := if score > st.best then pos else st.bm
      let alpha2 := if st.alpha ≥ score then st.alpha else score
      if alpha2 ≥ beta then Sum.inr (best2, bm2, b2)
      else negaRay f player beta fuel pos move ⟨best2, alpha2, bm2, b2⟩

/-- The outer `for` loop over the eight directions of Negamax::negamax
(src/game.cc:252-277); each direction restarts its ray at `ap` and an early
return from the ray loop propagates. -/
def negaDirs (f : Board → Int → Int → Int × Board) (player : Nat) (beta ap : Int) :
    List Int → NSt → NSt ⊕ (Int × Int × Board)
  | [], st => Sum.inl st
  | m :: ms, st =>
    match negaRay f player beta 49 ap m st with
    | Sum.inl st2 => negaDirs f player beta ap ms st2
    | Sum.inr r => Sum.inr r

/-- Negamax::negamax (src/game.cc:235-280), over an abstract scorer `sc`.
The result is the triple (returned value, board after the call, value of the
best-move out-parameter, 0 when never written).  `fuel` stands for
`max_depth - depth`; the source's `depth == max_depth` horizon test is
`fuel = 0`, and the `hasLost` test comes first in both clauses exactly as in
the source. -/
def Negamax.negamax (sc : Board → Nat → Int) :
    Nat → Board → Int → Int → Int → Int → Int → Int × Board × Int
  | 0, b, ap_pos, _pp_pos, depth, _alpha, _beta =>
    if b.hasLost ap_pos then (LOSS_VALUE + depth, b, 0)
    else (sc b (b.board ap_pos), b, 0)
  | fuel + 1, b, ap_pos, pp_pos, depth, alpha, beta =>
    if b.hasLost ap_pos then (LOSS_VALUE + depth, b, 0)
    else
      let player := b.board ap_pos
      let f : Board → Int → Int → Int × Board := fun b2 pos a =>
        let r := Negamax.negamax sc fuel b2 pp_pos pos (depth + 1) (-beta) (-a)
        (r.1, r.2.1)
      match negaDirs f player beta ap_pos MOVES ⟨-INF, alpha, 0, b⟩ with
      | Sum.inl st => (st.best, st.b, st.bm)
      | Sum.inr (v, bm, b2) => (v, b2, bm)

/-- Negamax::getMove (src/game.cc:214-223) with the default DijkstraScorer
(src/game.cc:203-205): root call at depth 1 with the full window, `move`
initialised to 0.  Returns the chosen move together with the board as left
behind by the search (the source mutates the board in place). -/
def Negamax.getMove (b : Board) (player : Nat) (max_depth : Nat) : Int × Board :=
  let ap_pos := if player = P1 then b.p1 else b.p2
  let pp_pos := if player = P1 then b.p2 else b.p1
  let r := Negamax.negamax DijkstraScorer.getScore (max_depth - 1) b ap_pos pp_pos 1 (-INF) INF
  (r.2.2, r.2.1)

/-- The cells enumerated by one ray of the source's move generation
(src/game.cc:252-259 and 290-300) on a fixed board: every cell from `pos + move`
onward while EMPTY, stopping before the first non-EMPTY cell. -/
def rayCells (b : Board) (move : Int) : Nat → Int → List Int
  | 0, _ => []
  | fuel + 1, pos =>
    let p := pos + move
    if b.board p = EMPTY then p :: rayCells b move fuel p else []

/-- All legal destinations from `pos`: the concatenation of the eight rays.
This is the move set of spec section 4.2. -/
def movesList (b : Board) (pos : Int) : List Int :=
  MOVES.flatMap fun m => rayCells b m 49 pos

/-- Maximum of a list of scores starting from the search's initial
`best_score = -INF`. -/
def bestOf (l : List Int) : Int := l.foldl max (-INF)

/-- Modelled from the spec: the exhaustive unpruned negamax search of identical
depth that spec sections 4.4 and 8 compare the pruned search against ("the move
chosen with pruning enabled yields the same value as an exhaustive unpruned
search of identical depth").  It has the same terminal cases and move
enumeration as `Negamax.negamax` but no alpha-beta window: every child is
evaluated and the maximum of the negated child values is returned. -/
def negamaxPlain (sc : Board → Nat → Int) : Nat → Board → Int → Int → Int → Int
  | 0, b, ap, _pp, depth =>
    if b.hasLost ap then LOSS_VALUE + depth else sc b (b.board ap)
  | fuel + 1, b, ap, pp, depth =>
    if b.hasLost ap then LOSS_VALUE + depth
    else
      let player := b.board ap
      bestOf ((movesList b ap).map fun c =>
        -(negamaxPlain sc fuel (b.setCell c player) pp c (depth + 1)))

/-- Modelled from the spec: the set of cells reachable from `src` within `n`
ray moves ("flood-fill layers"), as a list with possible repetitions.  Layer
`n + 1` adds every legal destination of every cell of layer `n`.  The minimum
number of ray moves needed to reach `c` is the least `n` with
`c ∈ reachListN b src n`. -/
def reachListN (b : Board) (src : Int) : Nat → List Int
  | 0 => [src]
  | n + 1 => reachListN b src n ++ (reachListN b src n).flatMap fun u => movesList b u

/-- The 25 playable linear indices (rows and columns 1..5 of the 7-wide
layout), in increasing order. -/
def innerCells : List Int :=
  (List.range 5).flatMap fun x => (List.range 5).map fun y => (x : Int) * 7 + y + 8

/-- A board is well formed when every EMPTY cell is playable: the sentinel ring
(and everything outside the array) is intact.  Every board reachable from
`Board.init` by plays satisfies this. -/
def Board.WF (b : Board) : Prop := ∀ i : Int, b.board i = EMPTY → i ∈ innerCells

/-- Both players have placed: each stored position is a playable cell carrying
that player's mark. -/
def BothPlaced (b : Board) : Prop :=
  b.p1 ∈ innerCells ∧ b.p2 ∈ innerCells ∧ b.board b.p1 = P1 ∧ b.board b.p2 = P2

/-- Number of EMPTY playable cells of a board. -/
def emptyCount (b : Board) : Nat := innerCells.countP fun i => b.board i == EMPTY

/-- Number of playable cells with an assigned flood-fill distance. -/
def assignedCount (steps : Int → Int) : Nat := innerCells.countP fun i => !(steps i == -1)

/-- Applying a list of `(x, y, player)` play calls in order. -/
def playSeq : Board → List (Int × Int × Nat) → Board
  | b, [] => b
  | b, (x, y, p) :: ms => playSeq (b.play x y p) ms

/-- A sequence of play calls is legal when each play lands on a cell that is
EMPTY at that moment and is made by one of the two players. -/
def legalSeq : Board → List (Int × Int × Nat) → Bool
  | _, [] => true
  | b, (x, y, p) :: ms => b.isLegal x y && (p == P1 || p == P2) && legalSeq (b.play x y p) ms

/-- A concrete position used by several witnesses: P1 placed at inner (0,0)
(index 8), P2 having played through inner (0,4), (1,1) and (4,0)
(indices 12, 16, 36, with final position 36). -/
def cexBoard : Board :=
  (((Board.init.play 0 0 P1).play 0 4 P2).play 1 1 P2).play 4 0 P2

/-- A concrete position in which P1 (at index 8) is fully surrounded: its
three playable neighbours 9, 15, 16 are occupied. -/
def lostBoard : Board :=
  (((Board.init.play 0 0 P1).play 0 1 P2).play 1 0 P2).play 1 1 P2

/-! Basic lemmas about cells and boards. -/

theorem Board.setCell_board (b : Board) (pos : Int) (v : Nat) (j : Int) :
    (b.setCell pos v).board j = if j = pos then v else b.board j := rfl

theorem Board.setCell_restore (b : Board) (pos : Int) (v : Nat) (h : b.board pos = EMPTY) :
    (b.setCell pos v).setCell pos EMPTY = b := by
  cases b with
  | mk brd q1 q2 =>
    unfold Board.setCell
    simp only [Board.mk.injEq, and_true, true_and]
    funext j
    by_cases hj : j = pos
    · simp [hj, ← h]
    · simp [hj]

/-- Result board of one step of the Negamax loop machinery. -/
def outBoard : NSt ⊕ (Int × Int × Board) → Board
  | Sum.inl st => st.b
  | Sum.inr r => r.2.2

theorem negaRay_board (f : Board → Int → Int → Int × Board) (player : Nat) (beta : Int)
    (hf : ∀ b2 pos a, (f b2 pos a).2 = b2) :
    ∀ (fuel : Nat) (pos0 move : Int) (st : NSt),
      outBoard (negaRay f player beta fuel pos0 move st) = st.b := by
  intro fuel
  induction fuel with
  | zero => intro pos0 move st; rfl
  | succ n ih =>
    intro pos0 move st
    unfold negaRay
    by_cases hc : st.b.board (pos0 + move) ≠ EMPTY
    · rw [if_pos hc]; rfl
    · rw [if_neg hc]
      push_neg at hc
      have hrestore :
          ((f (st.b.setCell (pos0 + move) player) (pos0 + move) st.alpha).2).setCell
              (pos0 + move) EMPTY = st.b := by
        rw [hf]; exact st.b.setCell_restore (pos0 + move) player hc
      by_cases hcut :
          (if st.alpha ≥ -1 * (f (st.b.setCell (pos0 + move) player) (pos0 + move) st.alpha).1
            then st.alpha
            else -1 * (f (st.b.setCell (pos0 + move) player) (pos0 + move) st.alpha).1) ≥ beta
      · simp only [hcut, if_pos, if_true]
        simpa [outBoard] using hrestore
      · simp only [hcut, if_neg, if_false]
        rw [ih]
        simpa using hrestore

theorem negaDirs_board (f : Board → Int → Int → Int × Board) (player : Nat) (beta ap : Int)
    (hf : ∀ b2 pos a, (f b2 pos a).2 = b2) :
    ∀ (ms : List Int) (st : NSt), outBoard (negaDirs f player beta ap ms st) = st.b := by
  intro ms
  induction ms with
  | nil => intro st; rfl
  | cons m ms ih =>
    intro st
    unfold negaDirs
    have hray := negaRay_board f player beta hf 49 ap m st
    cases hr : negaRay f player beta 49 ap m st with
    | inl st2 =>
      rw [hr] at hray
      rw [ih st2]
      exact hray
    | inr r =>
      rw [hr] at hray
      exact hray

theorem negamax_board (sc : Board → Nat → Int) :
    ∀ (fuel : Nat) (b : Board) (ap_pos pp_pos depth alpha beta : Int),
      (Negamax.negamax sc fuel b ap_pos pp_pos depth alpha beta).2.1 = b := by
  intro fuel
  induction fuel with
  | zero =>
    intro b ap pp d a beta
    unfold Negamax.negamax
    split <;> rfl
  | succ n ih =>
    intro b ap pp d a beta
    unfold Negamax.negamax
    by_cases hL : b.hasLost ap
    · simp [hL]
    · simp only [hL, if_false, Bool.false_eq_true]
      have hf : ∀ b2 pos al,
          ((fun b2 pos al =>
              let r := Negamax.negamax sc n b2 pp pos (d + 1) (-beta) (-al)
              (r.1, r.2.1) : Board → Int → Int → Int × Board) b2 pos al).2 = b2 := by
        intro b2 pos al
        exact ih b2 pp pos (d + 1) (-beta) (-al)
      have hd := negaDirs_board _ (b.board ap) beta ap hf MOVES ⟨-INF, a, 0, b⟩
      cases hres : negaDirs _ (b.board ap) beta ap MOVES ⟨-INF, a, 0, b⟩ with
      | inl st =>
        rw [hres] at hd
        simp [hres]
        exact hd
      | inr r =>
        rw [hres] at hd
        obtain ⟨v, bm, b2⟩ := r
        simp [hres]
        exact hd

instance (b : Board) : Decidable (BothPlaced b) := by
  unfold BothPlaced
  infer_instance

/-! Claim C4: the search leaves the board exactly as it found it. -/

/-- C4: for every board with both players placed and every maxDepth at least 1,
Negamax::getMove returns with the board (every cell and both stored player
positions) equal to its value at the moment of the call: all speculative
mutations made during the search are undone, including on beta-cutoff
returns. -/
theorem getMove_preserves_board (b : Board) (player : Nat) (max_depth : Nat)
    (h1 : BothPlaced b) (h2 : 1 ≤ max_depth) :
    (Negamax.getMove b player max_depth).2 = b := by
  unfold Negamax.getMove
  exact negamax_board DijkstraScorer.getScore (max_depth - 1) b _ _ 1 (-INF) INF

/-- Witness for C4 at a concrete board and depth. -/
theorem getMove_preserves_board_witness :
    BothPlaced cexBoard ∧ 1 ≤ 3 ∧ (Negamax.getMove cexBoard P1 3).2 = cexBoard :=
  ⟨by decide, by decide, getMove_preserves_board cexBoard P1 3 (by decide) (by decide)⟩

/-! Claim C5: the scorer is zero-sum. -/

/-- C5: for every board with both players placed, DijkstraScorer::getScore for
P1 is the negation of DijkstraScorer::getScore for P2 (it is a symmetric
differential of the two flood-fill values). -/
theorem getScore_zero_sum (b : Board) (h : BothPlaced b) :
    DijkstraScorer.getScore b P1 = - DijkstraScorer.getScore b P2 := by
  have h1 : OPPONENT P1 = P2 := by decide
  have h2 : OPPONENT P2 = P1 := by decide
  unfold DijkstraScorer.getScore
  rw [h1, h2]
  ring

/-- Witness for C5 at a concrete board. -/
theorem getScore_zero_sum_witness :
    BothPlaced cexBoard ∧
      DijkstraScorer.getScore cexBoard P1 = - DijkstraScorer.getScore cexBoard P2 :=
  ⟨by decide, getScore_zero_sum cexBoard (by decide)⟩

/-! Claim C6: hasLost is exactly the eight-neighbour blockade test. -/

/-- C6: for every board and playable position, Board::hasLost is true iff all
eight immediate neighbour cells (linear offsets +1, -1, +7, -7, +6, -6, +8, -8)
are non-Empty, and hasLost at the uninitialised position 0 is false. -/
theorem hasLost_iff_neighbors_blocked (b : Board) (pos : Int) (hpos : pos ∈ innerCells) :
    (b.hasLost pos = true ↔
      (b.board (pos + 1) ≠ EMPTY ∧ b.board (pos - 1) ≠ EMPTY ∧
       b.board (pos + 7) ≠ EMPTY ∧ b.board (pos - 7) ≠ EMPTY ∧
       b.board (pos + 6) ≠ EMPTY ∧ b.board (pos - 6) ≠ EMPTY ∧
       b.board (pos + 8) ≠ EMPTY ∧ b.board (pos - 8) ≠ EMPTY)) ∧
    b.hasLost 0 = false := by
  have h0 : pos ≠ 0 := by
    intro h
    rw [h] at hpos
    revert hpos
    decide
  constructor
  · unfold Board.hasLost
    rw [if_neg h0]
    by_cases hOr : b.board (pos + 1) = 0 ∨ b.board (pos - 1) = 0 ∨ b.board (pos + 7) = 0 ∨
        b.board (pos - 7) = 0 ∨ b.board (pos + 6) = 0 ∨ b.board (pos - 6) = 0 ∨
        b.board (pos + 8) = 0 ∨ b.board (pos - 8) = 0
    · rw [if_pos hOr]
      simp only [Bool.false_eq_true, false_iff, EMPTY]
      tauto
    · rw [if_neg hOr]
      push_neg at hOr
      simp only [true_iff, EMPTY]
      tauto
  · rfl

/-- Witness for C6: at `lostBoard`, position 8 is playable and surrounded, and
the equivalence holds there. -/
theorem hasLost_iff_neighbors_blocked_witness :
    (8 : Int) ∈ innerCells ∧
      ((lostBoard.hasLost 8 = true ↔
        (lostBoard.board (8 + 1) ≠ EMPTY ∧ lostBoard.board (8 - 1) ≠ EMPTY ∧
         lostBoard.board (8 + 7) ≠ EMPTY ∧ lostBoard.board (8 - 7) ≠ EMPTY ∧
         lostBoard.board (8 + 6) ≠ EMPTY ∧ lostBoard.board (8 - 6) ≠ EMPTY ∧
         lostBoard.board (8 + 8) ≠ EMPTY ∧ lostBoard.board (8 - 8) ≠ EMPTY)) ∧
       lostBoard.hasLost 0 = false) :=
  ⟨by decide, hasLost_iff_neighbors_blocked lostBoard 8 (by decide)⟩

/-! Claim C7: the loss check precedes the horizon check and move generation. -/

/-- C7: at every fuel level (that is, at every depth including the horizon
depth where `fuel = max_depth - depth = 0`), if the active player has lost,
Negamax::negamax returns LOSS_VALUE + depth: the hasLost test precedes both
move generation and the `depth == max_depth` horizon test. -/
theorem negamax_lost_value (sc : Board → Nat → Int) (fuel : Nat) (b : Board)
    (ap_pos pp_pos depth alpha beta : Int) (h : b.hasLost ap_pos = true) :
    (Negamax.negamax sc fuel b ap_pos pp_pos depth alpha beta).1 = LOSS_VALUE + depth := by
  cases fuel <;> simp [Negamax.negamax, h]

/-- Witness for C7 at a surrounded position, both at the horizon (fuel 0,
where the loss value wins over the static score) and deeper. -/
theorem negamax_lost_value_witness :
    lostBoard.hasLost 8 = true ∧
      (Negamax.negamax DijkstraScorer.getScore 0 lostBoard 8 16 5 (-INF) INF).1 =
        LOSS_VALUE + 5 ∧
      (Negamax.negamax DijkstraScorer.getScore 7 lostBoard 8 16 1 (-INF) INF).1 =
        LOSS_VALUE + 1 :=
  ⟨by decide, negamax_lost_value DijkstraScorer.getScore 0 lostBoard 8 16 5 (-INF) INF (by decide),
    negamax_lost_value DijkstraScorer.getScore 7 lostBoard 8 16 1 (-INF) INF (by decide)⟩

/-! Claim C8: Mirror reflects the opponent through the centre. -/

/-- C8: whenever the opponent's stored position is a playable cell with inner
coordinates (x, y), Mirror::getMove returns the linear index of inner
coordinates (4 - x, 4 - y), for any depth argument (the depth is ignored); no
board cell is consulted at all. -/
theorem mirror_getMove_reflects (b : Board) (player : Nat) (d1 d2 : Nat) (x y : Int)
    (hx0 : 0 ≤ x) (hx4 : x ≤ 4) (hy0 : 0 ≤ y) (hy4 : y ≤ 4)
    (hpp : (if player = P1 then b.p2 else b.p1) = XY_TO_POS x y) :
    Mirror.getMove b player d1 = XY_TO_POS (4 - x) (4 - y) ∧
      Mirror.getMove b player d1 = Mirror.getMove b player d2 := by
  have harg : XY_TO_POS x y - 8 = x * 7 + y := by unfold XY_TO_POS; ring
  have hX : POS_TO_X (XY_TO_POS x y) = x := by
    unfold POS_TO_X
    rw [harg]
    rw [Int.tdiv_eq_ediv (by omega) (by omega)]
    omega
  have hY : POS_TO_Y (XY_TO_POS x y) = y := by
    unfold POS_TO_Y
    rw [harg]
    rw [Int.tmod_eq_emod (by omega) (by omega)]
    omega
  constructor
  · simp only [Mirror.getMove]
    rw [hpp, hX, hY]
  · rfl

/-- Witness for C8 at a concrete board: the opponent of P1 sits at inner
coordinates (4, 0), so the mirror move is inner (0, 4), index 12. -/
theorem mirror_getMove_reflects_witness :
    (0 : Int) ≤ 4 ∧ (4 : Int) ≤ 4 ∧ (0 : Int) ≤ 0 ∧ (0 : Int) ≤ 4 ∧
      (if P1 = P1 then cexBoard.p2 else cexBoard.p1) = XY_TO_POS 4 0 ∧
      Mirror.getMove cexBoard P1 25 = XY_TO_POS (4 - 4) (4 - 0) ∧
      Mirror.getMove cexBoard P1 25 = Mirror.getMove cexBoard P1 3 :=
  ⟨by decide, by decide, by decide, by decide, by decide,
    mirror_getMove_reflects cexBoard P1 25 3 4 0 (by decide) (by decide) (by decide) (by decide)
      (by decide)⟩

/-! Claim C9: getMove returns the never-written initial move 0 at depth 1 or
when the root is already lost. -/

/-- C9: Negamax::getMove returns 0 (not a playable cell) whenever max_depth is
1 or the acting player's token has no legal single-step move at the root: in
both cases the root negamax call returns before the best-move out-parameter is
written, leaving its initial value 0. -/
theorem getMove_zero_cases (b : Board) (player : Nat) (max_depth : Nat)
    (h : max_depth = 1 ∨ b.hasLost (if player = P1 then b.p1 else b.p2) = true) :
    (Negamax.getMove b player max_depth).1 = 0 ∧ 0 ∉ innerCells := by
  refine ⟨?_, by decide⟩
  rcases h with h | h
  · subst h
    unfold Negamax.getMove
    simp only [Nat.sub_self]
    by_cases hL : b.hasLost (if player = P1 then b.p1 else b.p2) = true
    · simp [Negamax.negamax, hL]
    · simp only [Bool.not_eq_true] at hL
      simp [Negamax.negamax, hL]
  · unfold Negamax.getMove
    cases max_depth - 1 <;> simp [Negamax.negamax, h]

/-- Witness for C9 with max_depth 1 on a live board and any depth on a lost
root. -/
theorem getMove_zero_cases_witness :
    ((1 = 1 ∨ cexBoard.hasLost (if P1 = P1 then cexBoard.p1 else cexBoard.p2) = true) ∧
      ((Negamax.getMove cexBoard P1 1).1 = 0 ∧ 0 ∉ innerCells)) ∧
    ((25 = 1 ∨ lostBoard.hasLost (if P1 = P1 then lostBoard.p1 else lostBoard.p2) = true) ∧
      ((Negamax.getMove lostBoard P1 25).1 = 0 ∧ 0 ∉ innerCells)) :=
  ⟨⟨Or.inl rfl, getMove_zero_cases cexBoard P1 1 (Or.inl rfl)⟩,
    ⟨Or.inr (by decide), getMove_zero_cases lostBoard P1 25 (Or.inr (by decide))⟩⟩

/-! Claim C3: the single-mark claim is refuted by the trail; what does hold is
that the stored position always carries the player's mark and cells never
revert to Empty. -/

/-- C3 counterexample: after the legal fresh-board play sequence
P1 at (0,0), P2 at (1,1), P1 at (0,1) — each play on a previously Empty
cell — the two distinct cells 8 and 9 both hold P1's ownership mark, so more
than one cell equals a given player's mark, and only one of them (9) equals
the stored position: `Board::play` marks the destination but never clears the
moved-from cell. -/
theorem play_two_cells_hold_p1_mark :
    legalSeq Board.init [(0, 0, P1), (1, 1, P2), (0, 1, P1)] = true ∧
      (playSeq Board.init [(0, 0, P1), (1, 1, P2), (0, 1, P1)]).board 8 = P1 ∧
      (playSeq Board.init [(0, 0, P1), (1, 1, P2), (0, 1, P1)]).board 9 = P1 ∧
      (playSeq Board.init [(0, 0, P1), (1, 1, P2), (0, 1, P1)]).p1 = 9 ∧
      (8 : Int) ≠ 9 := by
  refine ⟨by decide, by decide, by decide, by decide, by decide⟩

/-- Auxiliary invariant for C3: along any legal play sequence, a player's
stored position (once nonzero) carries that player's mark, and the set of
EMPTY cells only shrinks. -/
theorem playSeq_invariant (ms : List (Int × Int × Nat)) :
    ∀ b : Board, legalSeq b ms = true →
      ((b.p1 ≠ 0 → b.board b.p1 = P1) ∧ (b.p2 ≠ 0 → b.board b.p2 = P2)) →
      (((playSeq b ms).p1 ≠ 0 → (playSeq b ms).board (playSeq b ms).p1 = P1) ∧
       ((playSeq b ms).p2 ≠ 0 → (playSeq b ms).board (playSeq b ms).p2 = P2) ∧
       (∀ i, (playSeq b ms).board i = EMPTY → b.board i = EMPTY)) := by
  induction ms with
  | nil =>
    intro b _ hinv
    exact ⟨hinv.1, hinv.2, fun i h => h⟩
  | cons m ms ih =>
    obtain ⟨x, y, p⟩ := m
    intro b hleg hinv
    simp only [legalSeq, Bool.and_eq_true, Bool.or_eq_true, beq_iff_eq] at hleg
    obtain ⟨⟨hlegal, hp⟩, hrest⟩ := hleg
    have hcell : b.board (x * 7 + y + 8) = EMPTY := by
      simpa [Board.isLegal] using hlegal
    have hinv2 : ((b.play x y p).p1 ≠ 0 → (b.play x y p).board (b.play x y p).p1 = P1) ∧
        ((b.play x y p).p2 ≠ 0 → (b.play x y p).board (b.play x y p).p2 = P2) := by
      unfold Board.play
      rcases hp with hp | hp
      · subst hp
        constructor
        · intro _
          simp
        · intro h2
          simp only at h2 ⊢
          have hne : b.p2 ≠ x * 7 + y + 8 := by
            intro he
            have := hinv.2 h2
            rw [he, hcell] at this
            exact absurd this (by decide)
          simp [if_neg hne, hinv.2 h2]
      · subst hp
        have hP2P1 : (P2 = P1) = False := by simp [P1, P2]
        constructor
        · intro h1
          simp only [hP2P1, if_false] at h1 ⊢
          have hne : b.p1 ≠ x * 7 + y + 8 := by
            intro he
            have := hinv.1 h1
            rw [he, hcell] at this
            exact absurd this (by decide)
          simp [if_neg hne, hinv.1 h1]
        · intro _
          simp [hP2P1]
    have hmain := ih (b.play x y p) hrest hinv2
    refine ⟨hmain.1, hmain.2.1, ?_⟩
    intro i hi
    have h2 := hmain.2.2 i hi
    unfold Board.play at h2
    simp only at h2
    by_cases he : i = x * 7 + y + 8
    · rw [he]; exact hcell
    · rw [if_neg he] at h2; exact h2

/-- C3 (amended): for every legal sequence of play calls on a fresh board
(each on a previously Empty cell), the cell at a player's stored position
(once that player has placed) holds that player's ownership mark, and no
non-Empty cell ever reverts to Empty; however more than one cell may hold the
same player's mark (the trail), as the counterexample shows. -/
theorem playSeq_marks_and_monotone (ms : List (Int × Int × Nat))
    (h : legalSeq Board.init ms = true) :
    (((playSeq Board.init ms).p1 ≠ 0 →
        (playSeq Board.init ms).board (playSeq Board.init ms).p1 = P1) ∧
     ((playSeq Board.init ms).p2 ≠ 0 →
        (playSeq Board.init ms).board (playSeq Board.init ms).p2 = P2) ∧
     (∀ i, (playSeq Board.init ms).board i = EMPTY → Board.init.board i = EMPTY)) :=
  playSeq_invariant ms Board.init h
    ⟨fun h1 => absurd rfl h1, fun h2 => absurd rfl h2⟩

/-- Witness for C3 (amended) at a concrete legal sequence. -/
theorem playSeq_marks_and_monotone_witness :
    legalSeq Board.init [(0, 0, P1), (1, 1, P2), (0, 1, P1)] = true ∧
      (playSeq Board.init [(0, 0, P1), (1, 1, P2), (0, 1, P1)]).board
        (playSeq Board.init [(0, 0, P1), (1, 1, P2), (0, 1, P1)]).p1 = P1 :=
  ⟨by decide,
    (playSeq_marks_and_monotone [(0, 0, P1), (1, 1, P2), (0, 1, P1)] (by decide)).1
      (by decide)⟩

/-! Helper lemmas: maxima, the abstract value loop of the search, cell counts
and well-formedness. -/

theorem if_gt_eq_max (x s : Int) : (if s > x then s else x) = max x s := by
  rcases le_or_lt s x with h | h
  · rw [if_neg (not_lt.mpr h), max_eq_left h]
  · rw [if_pos h, max_eq_right h.le]

theorem if_ge_eq_max (x s : Int) : (if x ≥ s then x else s) = max x s := by
  rcases le_or_lt s x with h | h
  · rw [if_pos h, max_eq_left h]
  · rw [if_neg (not_le.mpr h), max_eq_right h.le]

theorem foldl_max_init_le (l : List Int) : ∀ x : Int, x ≤ l.foldl max x := by
  induction l with
  | nil => intro x; exact le_rfl
  | cons c cs ih =>
    intro x
    simp only [List.foldl_cons]
    exact le_trans (le_max_left x c) (ih (max x c))

theorem foldl_max_mono (l : List Int) : ∀ x y : Int, x ≤ y → l.foldl max x ≤ l.foldl max y := by
  induction l with
  | nil => intro x y h; exact h
  | cons c cs ih =>
    intro x y h
    simp only [List.foldl_cons]
    exact ih _ _ (max_le_max h le_rfl)

theorem foldl_max_elem_le (l : List Int) : ∀ (x c : Int), c ∈ l → c ≤ l.foldl max x := by
  induction l with
  | nil => intro x c h; cases h
  | cons d ds ih =>
    intro x c h
    simp only [List.foldl_cons]
    rcases List.mem_cons.mp h with h | h
    · subst h
      exact le_trans (le_max_right x c) (foldl_max_init_le ds _)
    · exact ih _ c h

theorem foldl_max_le (l : List Int) :
    ∀ (x z : Int), x ≤ z → (∀ c ∈ l, c ≤ z) → l.foldl max x ≤ z := by
  induction l with
  | nil => intro x z hx _; exact hx
  | cons d ds ih =>
    intro x z hx hall
    simp only [List.foldl_cons]
    exact ih _ z (max_le hx (hall d (List.mem_cons_self d ds))) fun c hc =>
      hall c (List.mem_cons_of_mem d hc)

theorem foldl_max_cases (l : List Int) : ∀ x : Int, l.foldl max x = x ∨ l.foldl max x ∈ l := by
  induction l with
  | nil => intro x; exact Or.inl rfl
  | cons d ds ih =>
    intro x
    simp only [List.foldl_cons]
    rcases ih (max x d) with h | h
    · rcases le_or_lt d x with hdx | hdx
      · rw [max_eq_left hdx] at h ⊢
        exact Or.inl h
      · rw [max_eq_right hdx.le] at h ⊢
        refine Or.inr ?_
        rw [h]
        exact List.mem_cons_self d ds
    · exact Or.inr (List.mem_cons_of_mem d h)

/-- The value-and-window part of the search loop of Negamax::negamax,
abstracted over the candidate list and the (window-dependent) candidate
scores: threading `(best_score, alpha)` left to right, `Sum.inr` is the early
beta-cutoff return carrying `best_score`. -/
def absLoopSt (beta : Int) (vab : Int → Int → Int) : List Int → Int → Int → (Int × Int) ⊕ Int
  | [], best, a => Sum.inl (best, a)
  | c :: cs, best, a =>
    let s := vab c a
    let best2 := if s > best then s else best
    let a2 := if a ≥ s then a else s
    if a2 ≥ beta then Sum.inr best2 else absLoopSt beta vab cs best2 a2

/-- The value returned by the loop: `best_score` in both the run-to-completion
and the early-return case. -/
def absVal : (Int × Int) ⊕ Int → Int
  | Sum.inl pr => pr.1
  | Sum.inr v => v

theorem absLoopSt_append (beta : Int) (vab : Int → Int → Int) :
    ∀ (l1 l2 : List Int) (best a : Int),
      absLoopSt beta vab (l1 ++ l2) best a =
        match absLoopSt beta vab l1 best a with
        | Sum.inl pr => absLoopSt beta vab l2 pr.1 pr.2
        | Sum.inr v => Sum.inr v := by
  intro l1
  induction l1 with
  | nil => intro l2 best a; rfl
  | cons c cs ih =>
    intro l2 best a
    simp only [List.cons_append, absLoopSt]
    by_cases hcut : (if a ≥ vab c a then a else vab c a) ≥ beta
    · rw [if_pos hcut, if_pos hcut]
    · rw [if_neg hcut, if_neg hcut]
      exact ih l2 _ _

theorem absLoopSt_val_ge (beta : Int) (vab : Int → Int → Int) :
    ∀ (cs : List Int) (best a : Int), best ≤ absVal (absLoopSt beta vab cs best a) := by
  intro cs
  induction cs with
  | nil => intro best a; exact le_rfl
  | cons c cs ih =>
    intro best a
    simp only [absLoopSt]
    by_cases hcut : (if a ≥ vab c a then a else vab c a) ≥ beta
    · rw [if_pos hcut]
      rw [if_gt_eq_max]
      exact le_max_left _ _
    · rw [if_neg hcut]
      calc best ≤ max best (vab c a) := le_max_left _ _
        _ = (if vab c a > best then vab c a else best) := (if_gt_eq_max _ _).symm
        _ ≤ _ := ih _ _

theorem absLoopSt_val_le (beta : Int) (vab : Int → Int → Int) (B : Int) :
    ∀ (cs : List Int) (best a : Int), best ≤ B → (∀ c ∈ cs, ∀ al, vab c al ≤ B) →
      absVal (absLoopSt beta vab cs best a) ≤ B := by
  intro cs
  induction cs with
  | nil => intro best a hb _; exact hb
  | cons c cs ih =>
    intro best a hb hall
    simp only [absLoopSt]
    have hb2 : (if vab c a > best then vab c a else best) ≤ B := by
      rw [if_gt_eq_max]
      exact max_le hb (hall c (List.mem_cons_self c cs) a)
    by_cases hcut : (if a ≥ vab c a then a else vab c a) ≥ beta
    · rw [if_pos hcut]
      exact hb2
    · rw [if_neg hcut]
      exact ih _ _ hb2 fun d hd al => hall d (List.mem_cons_of_mem c hd) al

theorem innerCells_nodup : innerCells.Nodup := by decide

theorem innerCells_length : innerCells.length = 25 := by decide

theorem countP_flip (c : Int) (f g : Int → Bool) (hf : f c = true) (hg : g c = false)
    (hfg : ∀ i, i ≠ c → g i = f i) :
    ∀ l : List Int, l.Nodup → c ∈ l → l.countP g + 1 ≤ l.countP f := by
  intro l
  induction l with
  | nil => intro _ h; cases h
  | cons d ds ih =>
    intro hnd hmem
    rw [List.countP_cons, List.countP_cons]
    rcases List.mem_cons.mp hmem with h | h
    · subst h
      have hds : ds.countP g = ds.countP f := by
        refine List.countP_congr fun x hx => ?_
        have : x ≠ c := fun he => (List.nodup_cons.mp hnd).1 (he ▸ hx)
        rw [hfg x this]
      rw [hds, hg, hf]
      norm_num
    · have hd : d ≠ c := fun he => (List.nodup_cons.mp hnd).1 (he ▸ h)
      have := ih (List.nodup_cons.mp hnd).2 h
      rw [hfg d hd]
      omega

theorem emptyCount_le_25 (b : Board) : emptyCount b ≤ 25 := by
  calc emptyCount b ≤ innerCells.length := List.countP_le_length _
    _ = 25 := innerCells_length

theorem emptyCount_setCell (b : Board) (c : Int) (v : Nat)
    (hc : c ∈ innerCells) (hcell : b.board c = EMPTY) (hv : v ≠ EMPTY) :
    emptyCount (b.setCell c v) + 1 ≤ emptyCount b := by
  unfold emptyCount
  refine countP_flip c _ _ ?_ ?_ ?_ innerCells innerCells_nodup hc
  · simp [hcell]
  · simp [Board.setCell, hv]
  · intro i hi
    simp [Board.setCell, hi]

theorem inner_mem_iff (i : Int) :
    i ∈ innerCells ↔ 0 ≤ i ∧ 1 ≤ i / 7 ∧ i / 7 ≤ 5 ∧ 1 ≤ i % 7 ∧ i % 7 ≤ 5 := by
  constructor
  · intro h
    fin_cases h <;> decide
  · rintro ⟨h0, hq1, hq5, hr1, hr5⟩
    have hi1 : 8 ≤ i := by omega
    have hi2 : i ≤ 40 := by omega
    interval_cases i <;> first | decide | omega

theorem WF_init : Board.WF Board.init := by
  intro i hi
  unfold Board.init at hi
  simp only at hi
  by_cases hc : 1 ≤ i.tdiv 7 ∧ i.tdiv 7 ≤ 5 ∧ 1 ≤ i.tmod 7 ∧ i.tmod 7 ≤ 5 ∧ 0 ≤ i
  · obtain ⟨h1, h2, h3, h4, h5⟩ := hc
    rw [Int.tdiv_eq_ediv h5 (by omega)] at h1 h2
    rw [Int.tmod_eq_emod h5 (by omega)] at h3 h4
    exact (inner_mem_iff i).mpr ⟨h5, h1, h2, h3, h4⟩
  · rw [if_neg hc] at hi
    exact absurd hi (by decide)

theorem WF_play (b : Board) (x y : Int) (p : Nat) (hwf : Board.WF b) (hp : p ≠ EMPTY) :
    Board.WF (b.play x y p) := by
  intro i hi
  unfold Board.play at hi
  simp only at hi
  by_cases he : i = x * 7 + y + 8
  · rw [if_pos he] at hi
    exact absurd hi hp
  · rw [if_neg he] at hi
    exact hwf i hi

theorem WF_setCell (b : Board) (c : Int) (v : Nat) (hwf : Board.WF b) (hv : v ≠ EMPTY) :
    Board.WF (b.setCell c v) := by
  intro i hi
  rw [Board.setCell_board] at hi
  by_cases he : i = c
  · rw [if_pos he] at hi
    exact absurd hi hv
  · rw [if_neg he] at hi
    exact hwf i hi

theorem rayCells_empty (b : Board) (m : Int) :
    ∀ (fuel : Nat) (pos : Int), ∀ c ∈ rayCells b m fuel pos, b.board c = EMPTY := by
  intro fuel
  induction fuel with
  | zero => intro pos c hc; cases hc
  | succ n ih =>
    intro pos c hc
    unfold rayCells at hc
    by_cases hcell : b.board (pos + m) = EMPTY
    · rw [if_pos hcell] at hc
      rcases List.mem_cons.mp hc with h | h
      · subst h; exact hcell
      · exact ih _ c h
    · rw [if_neg hcell] at hc
      cases hc

theorem movesList_empty (b : Board) (pos : Int) :
    ∀ c ∈ movesList b pos, b.board c = EMPTY := by
  intro c hc
  unfold movesList at hc
  obtain ⟨m, _, hm⟩ := List.mem_flatMap.mp hc
  exact rayCells_empty b m 49 pos c hm

theorem hasLost_false_neighbor (b : Board) (pos : Int) (hpos : pos ≠ 0)
    (h : b.hasLost pos = false) :
    ∃ m ∈ MOVES, b.board (pos + m) = EMPTY := by
  unfold Board.hasLost at h
  rw [if_neg hpos] at h
  by_cases hOr : b.board (pos + 1) = 0 ∨ b.board (pos - 1) = 0 ∨ b.board (pos + 7) = 0 ∨
      b.board (pos - 7) = 0 ∨ b.board (pos + 6) = 0 ∨ b.board (pos - 6) = 0 ∨
      b.board (pos + 8) = 0 ∨ b.board (pos - 8) = 0
  · have h1 : ∀ k : Int, b.board (pos - k) = b.board (pos + -k) := by
      intro k
      rw [Int.sub_eq_add_neg]
    rcases hOr with h | h | h | h | h | h | h | h
    · exact ⟨1, by decide, h⟩
    · exact ⟨-1, by decide, by rw [← h1]; exact h⟩
    · exact ⟨7, by decide, h⟩
    · exact ⟨-7, by decide, by rw [← h1]; exact h⟩
    · exact ⟨6, by decide, h⟩
    · exact ⟨-6, by decide, by rw [← h1]; exact h⟩
    · exact ⟨8, by decide, h⟩
    · exact ⟨-8, by decide, by rw [← h1]; exact h⟩
  · rw [if_neg hOr] at h
    cases h

theorem movesList_ne_nil (b : Board) (pos : Int) (hpos : pos ≠ 0)
    (h : b.hasLost pos = false) : movesList b pos ≠ [] := by
  obtain ⟨m, hm, hcell⟩ := hasLost_false_neighbor b pos hpos h
  intro hnil
  have : pos + m ∈ movesList b pos := by
    unfold movesList
    refine List.mem_flatMap.mpr ⟨m, hm, ?_⟩
    unfold rayCells
    rw [if_pos hcell]
    exact List.mem_cons_self _ _
  rw [hnil] at this
  cases this

/-! Bridging the threaded search loop to the abstract value loop. -/

/-- Value component of a search-loop result. -/
def valOf : NSt ⊕ (Int × Int × Board) → Int
  | Sum.inl st => st.best
  | Sum.inr r => r.1

/-- Forget the best-move and board components of a search-loop result. -/
def eraseSt : NSt ⊕ (Int × Int × Board) → (Int × Int) ⊕ Int
  | Sum.inl st => Sum.inl (st.best, st.alpha)
  | Sum.inr r => Sum.inr r.1

theorem absVal_eraseSt (x : NSt ⊕ (Int × Int × Board)) : absVal (eraseSt x) = valOf x := by
  cases x <;> rfl

theorem negaRay_erase (f : Board → Int → Int → Int × Board) (player : Nat) (beta : Int)
    (b : Board) (hfb : ∀ b2 pos a, (f b2 pos a).2 = b2) :
    ∀ (fuel : Nat) (pos0 m best a bm : Int),
      eraseSt (negaRay f player beta fuel pos0 m ⟨best, a, bm, b⟩) =
        absLoopSt beta (fun c al => -1 * (f (b.setCell c player) c al).1)
          (rayCells b m fuel pos0) best a := by
  intro fuel
  induction fuel with
  | zero => intro pos0 m best a bm; rfl
  | succ n ih =>
    intro pos0 m best a bm
    by_cases hcell : b.board (pos0 + m) = EMPTY
    · have hres :
          ((f (b.setCell (pos0 + m) player) (pos0 + m) a).2).setCell (pos0 + m) EMPTY = b := by
        rw [hfb]
        exact b.setCell_restore (pos0 + m) player hcell
      show eraseSt
          (if b.board (pos0 + m) ≠ EMPTY then Sum.inl ⟨best, a, bm, b⟩
           else
             let r := f (b.setCell (pos0 + m) player) (pos0 + m) a
             let score := -1 * r.1
             let b2 := r.2.setCell (pos0 + m) EMPTY
             let best2 := if score > best then score else best
             let bm2 := if score > best then pos0 + m else bm
             let alpha2 := if a ≥ score then a else score
             if alpha2 ≥ beta then Sum.inr (best2, bm2, b2)
             else negaRay f player beta n (pos0 + m) m ⟨best2, alpha2, bm2, b2⟩) = _
      rw [if_neg (not_not_intro hcell)]
      show eraseSt
          (if (if a ≥ -1 * (f (b.setCell (pos0 + m) player) (pos0 + m) a).1 then a
               else -1 * (f (b.setCell (pos0 + m) player) (pos0 + m) a).1) ≥ beta
           then Sum.inr
             ((if -1 * (f (b.setCell (pos0 + m) player) (pos0 + m) a).1 > best
               then -1 * (f (b.setCell (pos0 + m) player) (pos0 + m) a).1 else best),
              (if -1 * (f (b.setCell (pos0 + m) player) (pos0 + m) a).1 > best
               then pos0 + m else bm),
              ((f (b.setCell (pos0 + m) player) (pos0 + m) a).2).setCell (pos0 + m) EMPTY)
           else negaRay f player beta n (pos0 + m) m
             ⟨(if -1 * (f (b.setCell (pos0 + m) player) (pos0 + m) a).1 > best
               then -1 * (f (b.setCell (pos0 + m) player) (pos0 + m) a).1 else best),
              (if a ≥ -1 * (f (b.setCell (pos0 + m) player) (pos0 + m) a).1 then a
               else -1 * (f (b.setCell (pos0 + m) player) (pos0 + m) a).1),
              (if -1 * (f (b.setCell (pos0 + m) player) (pos0 + m) a).1 > best
               then pos0 + m else bm),
              ((f (b.setCell (pos0 + m) player) (pos0 + m) a).2).setCell (pos0 + m) EMPTY⟩) = _
      rw [hres]
      have hray : rayCells b m (n + 1) pos0 = (pos0 + m) :: rayCells b m n (pos0 + m) := by
        show (if b.board (pos0 + m) = EMPTY then (pos0 + m) :: rayCells b m n (pos0 + m)
          else []) = _
        rw [if_pos hcell]
      rw [hray]
      show _ = (let s := -1 * (f (b.setCell (pos0 + m) player) (pos0 + m) a).1
        let best2 := if s > best then s else best
        let a2 := if a ≥ s then a else s
        if a2 ≥ beta then Sum.inr best2
        else absLoopSt beta (fun c al => -1 * (f (b.setCell c player) c al).1)
          (rayCells b m n (pos0 + m)) best2 a2)
      by_cases hcut : (if a ≥ -1 * (f (b.setCell (pos0 + m) player) (pos0 + m) a).1 then a
          else -1 * (f (b.setCell (pos0 + m) player) (pos0 + m) a).1) ≥ beta
      · rw [if_pos hcut]
        show Sum.inr _ = _
        rw [if_pos hcut]
      · rw [if_neg hcut]
        rw [ih (pos0 + m) m _ _ _]
        show _ = if _ ≥ beta then _ else _
        rw [if_neg hcut]
    · show eraseSt
          (if b.board (pos0 + m) ≠ EMPTY then Sum.inl ⟨best, a, bm, b⟩ else _) = _
      rw [if_pos hcell]
      have hray : rayCells b m (n + 1) pos0 = [] := by
        show (if b.board (pos0 + m) = EMPTY then (pos0 + m) :: rayCells b m n (pos0 + m)
          else []) = _
        rw [if_neg hcell]
      rw [hray]
      rfl

theorem negaDirs_erase (f : Board → Int → Int → Int × Board) (player : Nat) (beta ap : Int)
    (b : Board) (hfb : ∀ b2 pos a, (f b2 pos a).2 = b2) :
    ∀ (ms : List Int) (best a bm : Int),
      eraseSt (negaDirs f player beta ap ms ⟨best, a, bm, b⟩) =
        absLoopSt beta (fun c al => -1 * (f (b.setCell c player) c al).1)
          (ms.flatMap fun m => rayCells b m 49 ap) best a := by
  intro ms
  induction ms with
  | nil => intro best a bm; rfl
  | cons m ms ih =>
    intro best a bm
    have hflat : ((m :: ms).flatMap fun mm => rayCells b mm 49 ap) =
        rayCells b m 49 ap ++ (ms.flatMap fun mm => rayCells b mm 49 ap) := by
      simp [List.flatMap_cons]
    rw [hflat, absLoopSt_append]
    have hray := negaRay_erase f player beta b hfb 49 ap m best a bm
    have hrayb := negaRay_board f player beta hfb 49 ap m ⟨best, a, bm, b⟩
    show eraseSt (match negaRay f player beta 49 ap m ⟨best, a, bm, b⟩ with
      | Sum.inl st2 => negaDirs f player beta ap ms st2
      | Sum.inr r => Sum.inr r) = _
    cases hr : negaRay f player beta 49 ap m ⟨best, a, bm, b⟩ with
    | inl st2 =>
      rw [hr] at hray hrayb
      have hb2 : st2.b = b := hrayb
      have hst2 : st2 = ⟨st2.best, st2.alpha, st2.bm, b⟩ := by
        cases st2
        simp only [NSt.mk.injEq]
        exact ⟨trivial, trivial, trivial, hb2⟩
      rw [← hray]
      show eraseSt (negaDirs f player beta ap ms st2) = _
      rw [hst2, ih st2.best st2.alpha st2.bm]
      rfl
    | inr r =>
      rw [hr] at hray
      rw [← hray]
      rfl

theorem negamax_succ_val (sc : Board → Nat → Int) (fuel : Nat) (b : Board)
    (ap pp depth alpha beta : Int) (hL : b.hasLost ap = false) :
    (Negamax.negamax sc (fuel + 1) b ap pp depth alpha beta).1 =
      absVal (absLoopSt beta
        (fun c al => -1 * (Negamax.negamax sc fuel (b.setCell c (b.board ap)) pp c
          (depth + 1) (-beta) (-al)).1)
        (movesList b ap) (-INF) alpha) := by
  have hfb : ∀ (b2 : Board) (pos a : Int),
      ((fun b2 pos a =>
          ((Negamax.negamax sc fuel b2 pp pos (depth + 1) (-beta) (-a)).1,
           (Negamax.negamax sc fuel b2 pp pos (depth + 1) (-beta) (-a)).2.1)
        : Board → Int → Int → Int × Board) b2 pos a).2 = b2 := by
    intro b2 pos a
    exact negamax_board sc fuel b2 pp pos (depth + 1) (-beta) (-a)
  have hD := negaDirs_erase _ (b.board ap) beta ap b hfb MOVES (-INF) alpha 0
  show (if b.hasLost ap then (LOSS_VALUE + depth, b, (0 : Int))
    else
      match negaDirs (fun b2 pos a =>
          ((Negamax.negamax sc fuel b2 pp pos (depth + 1) (-beta) (-a)).1,
           (Negamax.negamax sc fuel b2 pp pos (depth + 1) (-beta) (-a)).2.1))
          (b.board ap) beta ap MOVES ⟨-INF, alpha, 0, b⟩ with
      | Sum.inl st => (st.best, st.b, st.bm)
      | Sum.inr (v, bm, b2) => (v, b2, bm)).1 = _
  rw [hL]
  show (match negaDirs (fun b2 pos a =>
      ((Negamax.negamax sc fuel b2 pp pos (depth + 1) (-beta) (-a)).1,
       (Negamax.negamax sc fuel b2 pp pos (depth + 1) (-beta) (-a)).2.1))
      (b.board ap) beta ap MOVES ⟨-INF, alpha, 0, b⟩ with
    | Sum.inl st => (st.best, st.b, st.bm)
    | Sum.inr (v, bm, b2) => (v, b2, bm)).1 = _
  cases hres : negaDirs (fun b2 pos a =>
      ((Negamax.negamax sc fuel b2 pp pos (depth + 1) (-beta) (-a)).1,
       (Negamax.negamax sc fuel b2 pp pos (depth + 1) (-beta) (-a)).2.1))
      (b.board ap) beta ap MOVES ⟨-INF, alpha, 0, b⟩ with
  | inl st =>
    rw [hres] at hD
    dsimp only at hD
    show (st.best, st.b, st.bm).1 = absVal (absLoopSt beta
      (fun c al => -1 * (Negamax.negamax sc fuel (b.setCell c (b.board ap)) pp c
        (depth + 1) (-beta) (-al)).1)
      (MOVES.flatMap fun m => rayCells b m 49 ap) (-INF) alpha)
    rw [← hD]
    rfl
  | inr r =>
    obtain ⟨v, bm, b2⟩ := r
    rw [hres] at hD
    dsimp only at hD
    show (v, b2, bm).1 = absVal (absLoopSt beta
      (fun c al => -1 * (Negamax.negamax sc fuel (b.setCell c (b.board ap)) pp c
        (depth + 1) (-beta) (-al)).1)
      (MOVES.flatMap fun m => rayCells b m 49 ap) (-INF) alpha)
    rw [← hD]
    rfl

theorem negamaxPlain_succ (sc : Board → Nat → Int) (fuel : Nat) (b : Board)
    (ap pp depth : Int) (hL : b.hasLost ap = false) :
    negamaxPlain sc (fuel + 1) b ap pp depth =
      bestOf ((movesList b ap).map fun c =>
        -(negamaxPlain sc fuel (b.setCell c (b.board ap)) pp c (depth + 1))) := by
  show (if b.hasLost ap then LOSS_VALUE + depth
    else bestOf ((movesList b ap).map fun c =>
      -(negamaxPlain sc fuel (b.setCell c (b.board ap)) pp c (depth + 1)))) = _
  rw [hL]
  show (if False then LOSS_VALUE + depth else _) = _
  rw [if_neg (fun h => h)]

/-- Fail-soft alpha-beta loop lemma (after Knuth-Moore): provided each
candidate score `vab c a` relates to the true candidate value `vp c` in the
fail-soft way for the window used to compute it, the loop value relates in the
same way to the running maximum of the true values. -/
theorem absLoopSt_km (beta : Int) (vab : Int → Int → Int) (vp : Int → Int)
    (hkm : ∀ c a, -INF ≤ a → a < beta →
      (beta ≤ vab c a → vab c a ≤ vp c) ∧
      (a < vab c a → vab c a < beta → vab c a = vp c) ∧
      (vab c a ≤ a → vp c ≤ vab c a)) :
    ∀ (cs : List Int) (best a : Int), -INF ≤ a → a < beta → best ≤ a →
      ((absVal (absLoopSt beta vab cs best a) ≤ a →
          (cs.map vp).foldl max best ≤ absVal (absLoopSt beta vab cs best a)) ∧
       (a < absVal (absLoopSt beta vab cs best a) →
          absVal (absLoopSt beta vab cs best a) < beta →
          absVal (absLoopSt beta vab cs best a) = (cs.map vp).foldl max best) ∧
       (beta ≤ absVal (absLoopSt beta vab cs best a) →
          absVal (absLoopSt beta vab cs best a) ≤ (cs.map vp).foldl max best)) := by
  intro cs
  induction cs with
  | nil =>
    intro best a ha0 ha hb
    exact ⟨fun _ => le_rfl, fun _ _ => rfl, fun _ => le_rfl⟩
  | cons c cs ih =>
    intro best a ha0 ha hb
    have tri := hkm c a ha0 ha
    have hstep : absLoopSt beta vab (c :: cs) best a =
        if max a (vab c a) ≥ beta then Sum.inr (max best (vab c a))
        else absLoopSt beta vab cs (max best (vab c a)) (max a (vab c a)) := by
      show (if (if a ≥ vab c a then a else vab c a) ≥ beta
          then Sum.inr (if vab c a > best then vab c a else best)
          else absLoopSt beta vab cs (if vab c a > best then vab c a else best)
            (if a ≥ vab c a then a else vab c a)) = _
      rw [if_gt_eq_max best (vab c a), if_ge_eq_max a (vab c a)]
    have hmap : ((c :: cs).map vp).foldl max best = (cs.map vp).foldl max (max best (vp c)) := by
      simp only [List.map_cons, List.foldl_cons]
    rw [hstep, hmap]
    by_cases hcut : max a (vab c a) ≥ beta
    · rw [if_pos hcut]
      have hs_beta : beta ≤ vab c a := by
        rcases le_max_iff.mp hcut with h | h
        · exact absurd h (not_le.mpr ha)
        · exact h
      have hr : absVal (Sum.inr (max best (vab c a)) : (Int × Int) ⊕ Int) =
          max best (vab c a) := rfl
      rw [hr, max_eq_right (le_trans hb (le_trans ha.le hs_beta))]
      refine ⟨fun h1 => absurd h1 (not_le.mpr (lt_of_lt_of_le ha hs_beta)), ?_, ?_⟩
      · intro _ h2
        exact absurd h2 (not_lt.mpr hs_beta)
      · intro _
        calc vab c a ≤ vp c := tri.1 hs_beta
          _ ≤ max best (vp c) := le_max_right _ _
          _ ≤ (cs.map vp).foldl max (max best (vp c)) := foldl_max_init_le _ _
    · rw [if_neg hcut]
      have ha2lt : max a (vab c a) < beta := not_le.mp hcut
      have ha20 : -INF ≤ max a (vab c a) := le_trans ha0 (le_max_left _ _)
      have hb2 : max best (vab c a) ≤ max a (vab c a) := max_le_max hb le_rfl
      have IH := ih (max best (vab c a)) (max a (vab c a)) ha20 ha2lt hb2
      have hr_ge : max best (vab c a) ≤
          absVal (absLoopSt beta vab cs (max best (vab c a)) (max a (vab c a))) :=
        absLoopSt_val_ge beta vab cs _ _
      refine ⟨?_, ?_, ?_⟩
      · intro h1
        have hw' := IH.1 (le_trans h1 (le_max_left _ _))
        have hs_le_a : vab c a ≤ a :=
          le_trans (le_trans (le_max_right best _) hr_ge) h1
        have hvp : vp c ≤ vab c a := tri.2.2 hs_le_a
        calc (cs.map vp).foldl max (max best (vp c))
            ≤ (cs.map vp).foldl max (max best (vab c a)) :=
              foldl_max_mono _ _ _ (max_le_max le_rfl hvp)
          _ ≤ _ := hw'
      · intro h1 h2
        rcases le_or_lt (absVal (absLoopSt beta vab cs (max best (vab c a)) (max a (vab c a))))
            (max a (vab c a)) with hr1 | hr1
        · have hs_gt_a : a < vab c a := by
            by_contra hles
            push_neg at hles
            have : absVal (absLoopSt beta vab cs (max best (vab c a)) (max a (vab c a))) ≤ a :=
              le_of_le_of_eq hr1 (max_eq_left hles)
            exact absurd h1 (not_lt.mpr this)
          have hmaxas : max a (vab c a) = vab c a := max_eq_right hs_gt_a.le
          have hr_eq_s : absVal (absLoopSt beta vab cs (max best (vab c a))
              (max a (vab c a))) = vab c a :=
            le_antisymm (le_of_le_of_eq hr1 hmaxas)
              (le_trans (le_max_right best _) hr_ge)
          have hs_lt_beta : vab c a < beta := hr_eq_s ▸ h2
          have hs_eq_vp : vab c a = vp c := tri.2.1 hs_gt_a hs_lt_beta
          have h_w_le := IH.1 hr1
          have h_le_w : absVal (absLoopSt beta vab cs (max best (vab c a))
              (max a (vab c a))) ≤ (cs.map vp).foldl max (max best (vab c a)) :=
            calc absVal (absLoopSt beta vab cs (max best (vab c a)) (max a (vab c a)))
                = vab c a := hr_eq_s
              _ ≤ max best (vab c a) := le_max_right _ _
              _ ≤ _ := foldl_max_init_le _ _
          rw [← hs_eq_vp]
          exact le_antisymm h_le_w h_w_le
        · rcases le_or_lt (vab c a) a with hsa | hsa
          · have hvp : vp c ≤ vab c a := tri.2.2 hsa
            have heq := IH.2.1 hr1 h2
            rcases foldl_max_cases (cs.map vp) (max best (vab c a)) with hcas | hcas
            · exfalso
              have hsmall : (cs.map vp).foldl max (max best (vab c a)) ≤ max a (vab c a) :=
                le_of_eq_of_le hcas hb2
              rw [← heq] at hsmall
              exact absurd hr1 (not_lt.mpr hsmall)
            · have h1le : absVal (absLoopSt beta vab cs (max best (vab c a))
                  (max a (vab c a))) ≤ (cs.map vp).foldl max (max best (vp c)) := by
                rw [heq]
                exact foldl_max_elem_le _ _ _ hcas
              have h2le : (cs.map vp).foldl max (max best (vp c)) ≤
                  absVal (absLoopSt beta vab cs (max best (vab c a)) (max a (vab c a))) := by
                rw [heq]
                exact foldl_max_mono _ _ _ (max_le_max le_rfl hvp)
              exact le_antisymm h1le h2le
          · have hs_lt_beta : vab c a < beta := lt_of_le_of_lt (le_max_right a _) ha2lt
            have hs_eq_vp : vab c a = vp c := tri.2.1 hsa hs_lt_beta
            rw [← hs_eq_vp]
            exact IH.2.1 hr1 h2
      · intro h1
        have hrlew := IH.2.2 h1
        rcases le_or_lt (vab c a) a with hsa | hsa
        · rcases foldl_max_cases (cs.map vp) (max best (vab c a)) with hcas | hcas
          · exfalso
            have hsmall : (cs.map vp).foldl max (max best (vab c a)) ≤ max a (vab c a) :=
              le_of_eq_of_le hcas hb2
            exact absurd (le_trans h1 (le_trans hrlew hsmall)) hcut
          · exact le_trans hrlew (foldl_max_elem_le _ _ _ hcas)
        · have hs_lt_beta : vab c a < beta := lt_of_le_of_lt (le_max_right a _) ha2lt
          have hs_eq_vp : vab c a = vp c := tri.2.1 hsa hs_lt_beta
          rw [← hs_eq_vp]
          exact hrlew

/-- One step of the abstract loop, in max form. -/
theorem absLoopSt_cons (beta : Int) (vab : Int → Int → Int) (c : Int) (cs : List Int)
    (best a : Int) :
    absLoopSt beta vab (c :: cs) best a =
      if max a (vab c a) ≥ beta then Sum.inr (max best (vab c a))
      else absLoopSt beta vab cs (max best (vab c a)) (max a (vab c a)) := by
  show (if (if a ≥ vab c a then a else vab c a) ≥ beta
      then Sum.inr (if vab c a > best then vab c a else best)
      else absLoopSt beta vab cs (if vab c a > best then vab c a else best)
        (if a ≥ vab c a then a else vab c a)) = _
  rw [if_gt_eq_max best (vab c a), if_ge_eq_max a (vab c a)]

/-- Fail-soft correctness of the pruned search against the unpruned search:
for any window `alpha < beta` inside `[-INF, INF]`, a fail-low result bounds
the true value from above, a fail-high result bounds it from below, and a
result strictly inside the window equals the true value. -/
theorem negamax_km (sc : Board → Nat → Int) :
    ∀ (fuel : Nat) (b : Board) (ap pp depth alpha beta : Int),
      -INF ≤ alpha → beta ≤ INF → alpha < beta →
      (((Negamax.negamax sc fuel b ap pp depth alpha beta).1 ≤ alpha →
          negamaxPlain sc fuel b ap pp depth ≤
            (Negamax.negamax sc fuel b ap pp depth alpha beta).1) ∧
       (alpha < (Negamax.negamax sc fuel b ap pp depth alpha beta).1 →
          (Negamax.negamax sc fuel b ap pp depth alpha beta).1 < beta →
          (Negamax.negamax sc fuel b ap pp depth alpha beta).1 =
            negamaxPlain sc fuel b ap pp depth) ∧
       (beta ≤ (Negamax.negamax sc fuel b ap pp depth alpha beta).1 →
          (Negamax.negamax sc fuel b ap pp depth alpha beta).1 ≤
            negamaxPlain sc fuel b ap pp depth)) := by
  intro fuel
  induction fuel with
  | zero =>
    intro b ap pp depth alpha beta ha0 hbI hab
    have hrv : (Negamax.negamax sc 0 b ap pp depth alpha beta).1 =
        negamaxPlain sc 0 b ap pp depth := by
      by_cases hL : b.hasLost ap
      · simp [Negamax.negamax, negamaxPlain, hL]
      · simp [Negamax.negamax, negamaxPlain, hL]
    rw [hrv]
    exact ⟨fun _ => le_rfl, fun _ _ => rfl, fun _ => le_rfl⟩
  | succ fuel ih =>
    intro b ap pp depth alpha beta ha0 hbI hab
    by_cases hL : b.hasLost ap
    · have hrv : (Negamax.negamax sc (fuel + 1) b ap pp depth alpha beta).1 =
          negamaxPlain sc (fuel + 1) b ap pp depth := by
        simp [Negamax.negamax, negamaxPlain, hL]
      rw [hrv]
      exact ⟨fun _ => le_rfl, fun _ _ => rfl, fun _ => le_rfl⟩
    · have hLf : b.hasLost ap = false := Bool.not_eq_true _ ▸ eq_false_of_ne_true hL
      rw [negamax_succ_val sc fuel b ap pp depth alpha beta hLf,
        negamaxPlain_succ sc fuel b ap pp depth hLf]
      have hkm : ∀ c al, -INF ≤ al → al < beta →
          ((beta ≤ -1 * (Negamax.negamax sc fuel (b.setCell c (b.board ap)) pp c
              (depth + 1) (-beta) (-al)).1 →
            -1 * (Negamax.negamax sc fuel (b.setCell c (b.board ap)) pp c
              (depth + 1) (-beta) (-al)).1 ≤
              -(negamaxPlain sc fuel (b.setCell c (b.board ap)) pp c (depth + 1))) ∧
           (al < -1 * (Negamax.negamax sc fuel (b.setCell c (b.board ap)) pp c
              (depth + 1) (-beta) (-al)).1 →
            -1 * (Negamax.negamax sc fuel (b.setCell c (b.board ap)) pp c
              (depth + 1) (-beta) (-al)).1 < beta →
            -1 * (Negamax.negamax sc fuel (b.setCell c (b.board ap)) pp c
              (depth + 1) (-beta) (-al)).1 =
              -(negamaxPlain sc fuel (b.setCell c (b.board ap)) pp c (depth + 1))) ∧
           (-1 * (Negamax.negamax sc fuel (b.setCell c (b.board ap)) pp c
              (depth + 1) (-beta) (-al)).1 ≤ al →
            -(negamaxPlain sc fuel (b.setCell c (b.board ap)) pp c (depth + 1)) ≤
              -1 * (Negamax.negamax sc fuel (b.setCell c (b.board ap)) pp c
                (depth + 1) (-beta) (-al)).1)) := by
        intro c al hal0 halb
        have IHc := ih (b.setCell c (b.board ap)) pp c (depth + 1) (-beta) (-al)
          (by unfold INF at hbI ⊢; omega) (by unfold INF at hal0 ⊢; omega) (by omega)
        refine ⟨?_, ?_, ?_⟩
        · intro h
          have := IHc.1 (by linarith)
          linarith
        · intro h1 h2
          have := IHc.2.1 (by linarith) (by linarith)
          linarith
        · intro h
          have := IHc.2.2 (by linarith)
          linarith
      exact absLoopSt_km beta _ _ hkm (movesList b ap) (-INF) alpha ha0 hab ha0

/-! Coarse bounds on the flood-fill totals, giving a static bound on the
scorer that keeps every score strictly inside the (-INF, INF) window. -/

theorem dijkstraRay_unfold (b : Board) (m step : Int) (n : Nat) (pos : Int)
    (steps : Int → Int) (q : List Int) :
    dijkstraRay b m step (n + 1) pos steps q =
      if b.board (pos + m) ≠ EMPTY then (steps, q)
      else if steps (pos + m) ≠ -1 then (steps, q)
      else dijkstraRay b m step n (pos + m)
        (fun j => if j = pos + m then step else steps j) (q ++ [pos + m]) := rfl

theorem dijkstraDirs_unfold (b : Board) (step pos m : Int) (ms : List Int)
    (steps : Int → Int) (q : List Int) :
    dijkstraDirs b step pos (m :: ms) steps q =
      dijkstraDirs b step pos ms (dijkstraRay b m step 49 pos steps q).1
        (dijkstraRay b m step 49 pos steps q).2 := rfl

theorem dijkstraRay_steps_or (b : Board) (m step : Int) :
    ∀ (fuel : Nat) (pos : Int) (steps : Int → Int) (q : List Int) (p : Int),
      (dijkstraRay b m step fuel pos steps q).1 p = steps p ∨
      (dijkstraRay b m step fuel pos steps q).1 p = step := by
  intro fuel
  induction fuel with
  | zero => intro pos steps q p; exact Or.inl rfl
  | succ n ih =>
    intro pos steps q p
    rw [dijkstraRay_unfold]
    by_cases h1 : b.board (pos + m) ≠ EMPTY
    · rw [if_pos h1]; exact Or.inl rfl
    · rw [if_neg h1]
      by_cases h2 : steps (pos + m) ≠ -1
      · rw [if_pos h2]; exact Or.inl rfl
      · rw [if_neg h2]
        rcases ih (pos + m) (fun j => if j = pos + m then step else steps j) (q ++ [pos + m]) p
          with h | h
        · rw [h]
          by_cases hp : p = pos + m
          · rw [if_pos hp]; exact Or.inr rfl
          · rw [if_neg hp]; exact Or.inl rfl
        · exact Or.inr h

theorem dijkstraRay_queue (b : Board) (m step : Int) :
    ∀ (fuel : Nat) (pos : Int) (steps : Int → Int) (q : List Int),
      ∃ new : List Int, (dijkstraRay b m step fuel pos steps q).2 = q ++ new ∧
        ∀ p ∈ new, (dijkstraRay b m step fuel pos steps q).1 p = step := by
  intro fuel
  induction fuel with
  | zero =>
    intro pos steps q
    exact ⟨[], by simp only [List.append_nil]; rfl, fun p hp => absurd hp (List.not_mem_nil p)⟩
  | succ n ih =>
    intro pos steps q
    rw [dijkstraRay_unfold]
    by_cases h1 : b.board (pos + m) ≠ EMPTY
    · rw [if_pos h1]
      exact ⟨[], by simp, fun p hp => absurd hp (List.not_mem_nil p)⟩
    · rw [if_neg h1]
      by_cases h2 : steps (pos + m) ≠ -1
      · rw [if_pos h2]
        exact ⟨[], by simp, fun p hp => absurd hp (List.not_mem_nil p)⟩
      · rw [if_neg h2]
        obtain ⟨new, hq, hnew⟩ := ih (pos + m)
          (fun j => if j = pos + m then step else steps j) (q ++ [pos + m])
        refine ⟨(pos + m) :: new, by rw [hq]; simp, ?_⟩
        intro p hp
        rcases List.mem_cons.mp hp with h | h
        · rcases dijkstraRay_steps_or b m step n (pos + m)
            (fun j => if j = pos + m then step else steps j) (q ++ [pos + m]) p with h2 | h2
          · rw [h2, h]
            simp
          · exact h2
        · exact hnew p h

theorem dijkstraDirs_steps_or (b : Board) (step pos : Int) :
    ∀ (ms : List Int) (steps : Int → Int) (q : List Int) (p : Int),
      (dijkstraDirs b step pos ms steps q).1 p = steps p ∨
      (dijkstraDirs b step pos ms steps q).1 p = step := by
  intro ms
  induction ms with
  | nil => intro steps q p; exact Or.inl rfl
  | cons m ms ih =>
    intro steps q p
    rw [dijkstraDirs_unfold]
    rcases ih (dijkstraRay b m step 49 pos steps q).1 (dijkstraRay b m step 49 pos steps q).2 p
      with h | h
    · rw [h]
      exact dijkstraRay_steps_or b m step 49 pos steps q p
    · exact Or.inr h

theorem dijkstraDirs_queue (b : Board) (step pos : Int) :
    ∀ (ms : List Int) (steps : Int → Int) (q : List Int),
      ∃ new : List Int, (dijkstraDirs b step pos ms steps q).2 = q ++ new ∧
        ∀ p ∈ new, (dijkstraDirs b step pos ms steps q).1 p = step := by
  intro ms
  induction ms with
  | nil =>
    intro steps q
    exact ⟨[], by simp only [List.append_nil]; rfl, fun p hp => absurd hp (List.not_mem_nil p)⟩
  | cons m ms ih =>
    intro steps q
    rw [dijkstraDirs_unfold]
    obtain ⟨new1, hq1, hnew1⟩ := dijkstraRay_queue b m step 49 pos steps q
    obtain ⟨new2, hq2, hnew2⟩ := ih (dijkstraRay b m step 49 pos steps q).1
      (dijkstraRay b m step 49 pos steps q).2
    refine ⟨new1 ++ new2, by rw [hq2, hq1]; simp, ?_⟩
    intro p hp
    rcases List.mem_append.mp hp with h | h
    · rcases dijkstraDirs_steps_or b step pos ms (dijkstraRay b m step 49 pos steps q).1
        (dijkstraRay b m step 49 pos steps q).2 p with h2 | h2
      · rw [h2]
        exact hnew1 p h
      · exact h2
    · exact hnew2 p h

theorem dijkstraLoop_bounds (b : Board) :
    ∀ (fuel : Nat) (st : DState) (c : Int),
      0 ≤ c → (∀ p, st.steps p ≤ c) → (∀ p ∈ st.q, 0 ≤ st.steps p) →
      0 ≤ st.total_cells → 0 ≤ st.total_steps →
      (0 ≤ (dijkstraLoop b fuel st).total_cells ∧
       (dijkstraLoop b fuel st).total_cells ≤ st.total_cells + fuel ∧
       0 ≤ (dijkstraLoop b fuel st).total_steps ∧
       (dijkstraLoop b fuel st).total_steps ≤ st.total_steps + fuel * (c + fuel)) := by
  intro fuel
  induction fuel with
  | zero =>
    intro st c hc hsteps hq htc hts
    have h0 : dijkstraLoop b 0 st = st := rfl
    rw [h0]
    refine ⟨htc, by norm_num, hts, by norm_num⟩
  | succ n ih =>
    intro st c hc hsteps hq htc hts
    match hqe : st.q with
    | [] =>
      have hself : dijkstraLoop b (n + 1) st = st := by
        show (match st.q with
          | [] => st
          | pos :: rest =>
            dijkstraLoop b n ⟨(dijkstraDirs b (st.steps pos + 1) pos MOVES st.steps rest).2,
              (dijkstraDirs b (st.steps pos + 1) pos MOVES st.steps rest).1,
              st.total_cells + 1, st.total_steps + st.steps pos⟩) = st
        rw [hqe]
      rw [hself]
      refine ⟨htc, by push_cast; omega, hts, by push_cast; nlinarith⟩
    | pos :: rest =>
      have hpos0 : 0 ≤ st.steps pos := hq pos (by rw [hqe]; exact List.mem_cons_self _ _)
      have hposc : st.steps pos ≤ c := hsteps pos
      have hstep : dijkstraLoop b (n + 1) st =
          dijkstraLoop b n ⟨(dijkstraDirs b (st.steps pos + 1) pos MOVES st.steps rest).2,
            (dijkstraDirs b (st.steps pos + 1) pos MOVES st.steps rest).1,
            st.total_cells + 1, st.total_steps + st.steps pos⟩ := by
        show (match st.q with
          | [] => st
          | pos :: rest =>
            dijkstraLoop b n ⟨(dijkstraDirs b (st.steps pos + 1) pos MOVES st.steps rest).2,
              (dijkstraDirs b (st.steps pos + 1) pos MOVES st.steps rest).1,
              st.total_cells + 1, st.total_steps + st.steps pos⟩) = _
        rw [hqe]
      rw [hstep]
      have hIH := ih ⟨(dijkstraDirs b (st.steps pos + 1) pos MOVES st.steps rest).2,
          (dijkstraDirs b (st.steps pos + 1) pos MOVES st.steps rest).1,
          st.total_cells + 1, st.total_steps + st.steps pos⟩ (c + 1)
        (by omega)
        (by
          intro p
          rcases dijkstraDirs_steps_or b (st.steps pos + 1) pos MOVES st.steps rest p with h | h
          · show (dijkstraDirs b (st.steps pos + 1) pos MOVES st.steps rest).1 p ≤ c + 1
            rw [h]
            exact le_trans (hsteps p) (by omega)
          · show (dijkstraDirs b (st.steps pos + 1) pos MOVES st.steps rest).1 p ≤ c + 1
            rw [h]
            omega)
        (by
          intro p hp
          obtain ⟨new, hqn, hnew⟩ := dijkstraDirs_queue b (st.steps pos + 1) pos MOVES
            st.steps rest
          show 0 ≤ (dijkstraDirs b (st.steps pos + 1) pos MOVES st.steps rest).1 p
          rw [hqn] at hp
          rcases List.mem_append.mp hp with h | h
          · rcases dijkstraDirs_steps_or b (st.steps pos + 1) pos MOVES st.steps rest p
              with h2 | h2
            · rw [h2]
              exact hq p (by rw [hqe]; exact List.mem_cons_of_mem _ h)
            · rw [h2]; omega
          · rw [hnew p h]; omega)
        (by show 0 ≤ st.total_cells + 1; omega)
        (by show 0 ≤ st.total_steps + st.steps pos; omega)
      refine ⟨hIH.1, ?_, hIH.2.2.1, ?_⟩
      · refine le_trans hIH.2.1 ?_
        show st.total_cells + 1 + (n : Int) ≤ st.total_cells + ((n : Nat) + 1 : Nat)
        push_cast
        omega
      · refine le_trans hIH.2.2.2 ?_
        show st.total_steps + st.steps pos + (n : Int) * (c + 1 + (n : Int)) ≤
          st.total_steps + ((n : Nat) + 1 : Nat) * (c + ((n : Nat) + 1 : Nat))
        push_cast
        nlinarith

theorem dijkstra_run_bounds (b : Board) (player : Nat) :
    0 ≤ (dijkstraRun b player).total_cells ∧ (dijkstraRun b player).total_cells ≤ 50 ∧
    0 ≤ (dijkstraRun b player).total_steps ∧ (dijkstraRun b player).total_steps ≤ 2500 := by
  unfold dijkstraRun
  have h := dijkstraLoop_bounds b 50
    ⟨[if player = P1 then b.p1 else b.p2],
     fun j => if j = (if player = P1 then b.p1 else b.p2) then 0 else -1, 0, 0⟩ 0
    le_rfl
    (by intro p; dsimp only; split <;> omega)
    (by
      intro p hp
      have : p = (if player = P1 then b.p1 else b.p2) := List.mem_singleton.mp hp
      dsimp only
      rw [if_pos this])
    le_rfl le_rfl
  refine ⟨h.1, le_trans h.2.1 (by norm_num), h.2.2.1, le_trans h.2.2.2 (by norm_num)⟩

theorem getScore_bound (b : Board) (player : Nat) :
    -3300 ≤ DijkstraScorer.getScore b player ∧ DijkstraScorer.getScore b player ≤ 3300 := by
  have h1 := dijkstra_run_bounds b player
  have h2 := dijkstra_run_bounds b (OPPONENT player)
  unfold DijkstraScorer.getScore DijkstraScorer.dijkstra SCORE_PER_CELL
  constructor <;> nlinarith [h1.1, h1.2.1, h1.2.2.1, h1.2.2.2, h2.1, h2.2.1, h2.2.2.1, h2.2.2.2]

/-- Every value returned by the pruned search on a well-formed board with both
tokens on marked playable cells is bounded by `4300 + depth + emptyCount b`,
far inside the `(-INF, INF)` window: loss values are `LOSS_VALUE + depth` at a
depth that can rise only as far as empty cells remain, and horizon values are
scorer values bounded by 3300. -/
theorem negamax_value_bound (sc : Board → Nat → Int)
    (hsc : ∀ b p, -3300 ≤ sc b p ∧ sc b p ≤ 3300) :
    ∀ (fuel : Nat) (b : Board) (ap pp depth alpha beta : Int),
      Board.WF b → ap ∈ innerCells → pp ∈ innerCells →
      b.board ap ≠ EMPTY → b.board pp ≠ EMPTY → 0 ≤ depth →
      (-(4300 + depth + (emptyCount b : Int)) ≤
          (Negamax.negamax sc fuel b ap pp depth alpha beta).1 ∧
       (Negamax.negamax sc fuel b ap pp depth alpha beta).1 ≤
          4300 + depth + (emptyCount b : Int)) := by
  intro fuel
  induction fuel with
  | zero =>
    intro b ap pp depth alpha beta hwf hap hpp hba hbp hd
    have hE : (0 : Int) ≤ (emptyCount b : Int) := by positivity
    by_cases hL : b.hasLost ap
    · have : (Negamax.negamax sc 0 b ap pp depth alpha beta).1 = LOSS_VALUE + depth := by
        simp [Negamax.negamax, hL]
      rw [this]
      unfold LOSS_VALUE
      constructor <;> omega
    · have : (Negamax.negamax sc 0 b ap pp depth alpha beta).1 = sc b (b.board ap) := by
        simp [Negamax.negamax, hL]
      rw [this]
      have := hsc b (b.board ap)
      constructor <;> omega
  | succ fuel ih =>
    intro b ap pp depth alpha beta hwf hap hpp hba hbp hd
    have hE : (0 : Int) ≤ (emptyCount b : Int) := by positivity
    by_cases hL : b.hasLost ap
    · have : (Negamax.negamax sc (fuel + 1) b ap pp depth alpha beta).1 =
          LOSS_VALUE + depth := by
        simp [Negamax.negamax, hL]
      rw [this]
      unfold LOSS_VALUE
      constructor <;> omega
    · have hLf : b.hasLost ap = false := Bool.not_eq_true _ ▸ eq_false_of_ne_true hL
      rw [negamax_succ_val sc fuel b ap pp depth alpha beta hLf]
      have hap0 : ap ≠ 0 := by
        intro h
        rw [h] at hap
        exact absurd hap (by decide)
      have hchild : ∀ c ∈ movesList b ap, ∀ al : Int,
          -(4300 + depth + (emptyCount b : Int)) ≤
            -1 * (Negamax.negamax sc fuel (b.setCell c (b.board ap)) pp c
              (depth + 1) (-beta) (-al)).1 ∧
          -1 * (Negamax.negamax sc fuel (b.setCell c (b.board ap)) pp c
              (depth + 1) (-beta) (-al)).1 ≤ 4300 + depth + (emptyCount b : Int) := by
        intro c hc al
        have hcell : b.board c = EMPTY := movesList_empty b ap c hc
        have hcin : c ∈ innerCells := hwf c hcell
        have hcap : c ≠ ap := fun he => hba (he ▸ hcell)
        have hcpp : c ≠ pp := fun he => hbp (he ▸ hcell)
        have hwf2 : Board.WF (b.setCell c (b.board ap)) :=
          WF_setCell b c (b.board ap) hwf hba
        have hbpp2 : (b.setCell c (b.board ap)).board pp ≠ EMPTY := by
          rw [Board.setCell_board, if_neg (fun he => hcpp he.symm)]
          exact hbp
        have hbc2 : (b.setCell c (b.board ap)).board c ≠ EMPTY := by
          rw [Board.setCell_board, if_pos rfl]
          exact hba
        have hEc := emptyCount_setCell b c (b.board ap) hcin hcell hba
        have hIH := ih (b.setCell c (b.board ap)) pp c (depth + 1) (-beta) (-al)
          hwf2 hpp hcin hbpp2 hbc2 (by omega)
        have hcast : ((emptyCount (b.setCell c (b.board ap)) : Int)) + 1 ≤
            (emptyCount b : Int) := by
          exact_mod_cast hEc
        constructor <;> omega
      have hne : movesList b ap ≠ [] := movesList_ne_nil b ap hap0 hLf
      obtain ⟨c0, cs0, hms⟩ := List.exists_cons_of_ne_nil hne
      constructor
      · rw [hms]
        rw [absLoopSt_cons]
        have hc0 := hchild c0 (by rw [hms]; exact List.mem_cons_self _ _) alpha
        by_cases hcut : max alpha (-1 * (Negamax.negamax sc fuel
            (b.setCell c0 (b.board ap)) pp c0 (depth + 1) (-beta) (-alpha)).1) ≥ beta
        · rw [if_pos hcut]
          have : absVal (Sum.inr (max (-INF) (-1 * (Negamax.negamax sc fuel
              (b.setCell c0 (b.board ap)) pp c0 (depth + 1) (-beta) (-alpha)).1))
              : (Int × Int) ⊕ Int) =
              max (-INF) (-1 * (Negamax.negamax sc fuel (b.setCell c0 (b.board ap)) pp c0
                (depth + 1) (-beta) (-alpha)).1) := rfl
          rw [this]
          exact le_trans hc0.1 (le_max_right _ _)
        · rw [if_neg hcut]
          refine le_trans (le_trans hc0.1 (le_max_right (-INF) _)) ?_
          exact absLoopSt_val_ge beta _ cs0 _ _
      · refine absLoopSt_val_le beta _ (4300 + depth + (emptyCount b : Int))
          (movesList b ap) (-INF) alpha ?_ ?_
        · unfold INF
          omega
        · intro c hc al
          exact (hchild c hc al).2

/-! Claim C1: the alpha-beta search computes the exact unpruned negamax value
at the root. -/

/-- C1: for every well-formed board with both players placed and every
maxDepth at least 1, the value computed at the root by Negamax::negamax with
alpha-beta pruning, called with the full window `(-INF, INF)` exactly as
Negamax::getMove calls it, equals the value of the exhaustive unpruned negamax
search of the same depth over the same board. -/
theorem negamax_alphabeta_root_value (b : Board) (player : Nat) (max_depth : Nat)
    (hwf : Board.WF b) (hbp : BothPlaced b) (hd : 1 ≤ max_depth) :
    (Negamax.negamax DijkstraScorer.getScore (max_depth - 1) b
        (if player = P1 then b.p1 else b.p2) (if player = P1 then b.p2 else b.p1)
        1 (-INF) INF).1 =
      negamaxPlain DijkstraScorer.getScore (max_depth - 1) b
        (if player = P1 then b.p1 else b.p2) (if player = P1 then b.p2 else b.p1) 1 := by
  obtain ⟨hp1, hp2, hm1, hm2⟩ := hbp
  have hap : (if player = P1 then b.p1 else b.p2) ∈ innerCells := by
    split <;> assumption
  have hpp : (if player = P1 then b.p2 else b.p1) ∈ innerCells := by
    split <;> assumption
  have hbap : b.board (if player = P1 then b.p1 else b.p2) ≠ EMPTY := by
    split
    · rw [hm1]; decide
    · rw [hm2]; decide
  have hbpp : b.board (if player = P1 then b.p2 else b.p1) ≠ EMPTY := by
    split
    · rw [hm2]; decide
    · rw [hm1]; decide
  have hbound := negamax_value_bound DijkstraScorer.getScore getScore_bound
    (max_depth - 1) b (if player = P1 then b.p1 else b.p2)
    (if player = P1 then b.p2 else b.p1) 1 (-INF) INF hwf hap hpp hbap hbpp (by omega)
  have hE : (emptyCount b : Int) ≤ 25 := by exact_mod_cast emptyCount_le_25 b
  have hkm := negamax_km DijkstraScorer.getScore (max_depth - 1) b
    (if player = P1 then b.p1 else b.p2) (if player = P1 then b.p2 else b.p1) 1 (-INF) INF
    le_rfl le_rfl (by unfold INF; omega)
  refine hkm.2.1 ?_ ?_
  · unfold INF at hbound ⊢
    omega
  · unfold INF at hbound ⊢
    omega

/-- Witness for C1 at a concrete board and depth 3. -/
theorem negamax_alphabeta_root_value_witness :
    BothPlaced cexBoard ∧ 1 ≤ 3 ∧
      (Negamax.negamax DijkstraScorer.getScore (3 - 1) cexBoard
          (if P1 = P1 then cexBoard.p1 else cexBoard.p2)
          (if P1 = P1 then cexBoard.p2 else cexBoard.p1) 1 (-INF) INF).1 =
        negamaxPlain DijkstraScorer.getScore (3 - 1) cexBoard
          (if P1 = P1 then cexBoard.p1 else cexBoard.p2)
          (if P1 = P1 then cexBoard.p2 else cexBoard.p1) 1 :=
  ⟨by decide, by decide,
    negamax_alphabeta_root_value cexBoard P1 3
      (WF_play _ 4 0 P2 (WF_play _ 1 1 P2 (WF_play _ 0 4 P2
        (WF_play _ 0 0 P1 WF_init (by decide)) (by decide)) (by decide)) (by decide))
      (by decide) (by decide)⟩

/-! Counting and reachability lemmas for the flood-fill analysis. -/

theorem countP_false_eq_zero : ∀ l : List Int, l.countP (fun _ => false) = 0 := by
  intro l
  induction l with
  | nil => rfl
  | cons d ds ih => rw [List.countP_cons, ih]; simp

theorem countP_flip_eq (c : Int) (f g : Int → Bool) (hf : f c = false) (hg : g c = true)
    (hfg : ∀ i, i ≠ c → g i = f i) :
    ∀ l : List Int, l.Nodup → c ∈ l → l.countP g = l.countP f + 1 := by
  intro l
  induction l with
  | nil => intro _ h; cases h
  | cons d ds ih =>
    intro hnd hmem
    rw [List.countP_cons, List.countP_cons]
    rcases List.mem_cons.mp hmem with h | h
    · subst h
      have hds : ds.countP g = ds.countP f := by
        refine List.countP_congr fun x hx => ?_
        have : x ≠ c := fun he => (List.nodup_cons.mp hnd).1 (he ▸ hx)
        rw [hfg x this]
      rw [hds, hg, hf]
      norm_num
    · have hd : d ≠ c := fun he => (List.nodup_cons.mp hnd).1 (he ▸ h)
      have := ih (List.nodup_cons.mp hnd).2 h
      rw [hfg d hd]
      omega

theorem assignedCount_flip_list (f g : Int → Int) :
    ∀ new : List Int, new.Nodup →
      (∀ p ∈ new, p ∈ innerCells ∧ f p = -1 ∧ g p ≠ -1) →
      (∀ p, p ∉ new → g p = f p) →
      assignedCount g = assignedCount f + new.length := by
  intro new
  induction new generalizing f with
  | nil =>
    intro _ _ hout
    simp only [List.length_nil, Nat.add_zero]
    exact List.countP_congr fun x _ => by rw [hout x (List.not_mem_nil x)]
  | cons p new ih =>
    intro hnd hin hout
    have hpnew : p ∉ new := (List.nodup_cons.mp hnd).1
    have hstep : assignedCount (fun i => if i = p then g p else f i) =
        assignedCount f + 1 := by
      refine countP_flip_eq p _ _ ?_ ?_ ?_ innerCells innerCells_nodup
        (hin p (List.mem_cons_self _ _)).1
      · have := (hin p (List.mem_cons_self _ _)).2.1
        simp [this]
      · have := (hin p (List.mem_cons_self _ _)).2.2
        simp [this]
      · intro i hi
        simp [hi]
    have hmain : assignedCount g =
        assignedCount (fun i => if i = p then g p else f i) + new.length := by
      refine ih _ (List.nodup_cons.mp hnd).2 ?_ ?_
      · intro x hx
        have hxp : x ≠ p := fun he => hpnew (he ▸ hx)
        refine ⟨(hin x (List.mem_cons_of_mem p hx)).1, ?_,
          (hin x (List.mem_cons_of_mem p hx)).2.2⟩
        rw [if_neg hxp]
        exact (hin x (List.mem_cons_of_mem p hx)).2.1
      · intro x hx
        by_cases hxp : x = p
        · rw [if_pos hxp, hxp]
        · rw [if_neg hxp]
          exact hout x (by
            intro hmem
            rcases List.mem_cons.mp hmem with h | h
            · exact hxp h
            · exact hx h)
    rw [hmain, hstep]
    simp only [List.length_cons]
    omega

theorem reachListN_mono (b : Board) (src : Int) (n : Nat) :
    ∀ c ∈ reachListN b src n, c ∈ reachListN b src (n + 1) := by
  intro c hc
  unfold reachListN
  exact List.mem_append_left _ hc

theorem reachListN_step (b : Board) (src : Int) (n : Nat) (u c : Int)
    (hu : u ∈ reachListN b src n) (hc : c ∈ movesList b u) :
    c ∈ reachListN b src (n + 1) := by
  unfold reachListN
  refine List.mem_append_right _ ?_
  exact List.mem_flatMap.mpr ⟨u, hu, hc⟩

theorem reachListN_elems (b : Board) (src : Int) :
    ∀ (n : Nat), ∀ c ∈ reachListN b src n, c = src ∨ b.board c = EMPTY := by
  intro n
  induction n with
  | zero =>
    intro c hc
    exact Or.inl (List.mem_singleton.mp hc)
  | succ n ih =>
    intro c hc
    unfold reachListN at hc
    rcases List.mem_append.mp hc with h | h
    · exact ih c h
    · obtain ⟨u, _, hcu⟩ := List.mem_flatMap.mp h
      exact Or.inr (movesList_empty b u c hcu)

/-! Precise effect of one queue-pop on the flood-fill state. -/

theorem dijkstraRay_fx (b : Board) (m step : Int) (hstep : 0 ≤ step) :
    ∀ (fuel : Nat) (pos : Int) (steps : Int → Int) (q : List Int),
      ∃ new : List Int,
        (dijkstraRay b m step fuel pos steps q).2 = q ++ new ∧
        new.Nodup ∧
        (∀ p, p ∉ new → (dijkstraRay b m step fuel pos steps q).1 p = steps p) ∧
        (∀ p ∈ new, (dijkstraRay b m step fuel pos steps q).1 p = step ∧ steps p = -1 ∧
          b.board p = EMPTY ∧ p ∈ rayCells b m fuel pos) := by
  intro fuel
  induction fuel with
  | zero =>
    intro pos steps q
    exact ⟨[], by simp only [List.append_nil]; rfl, List.nodup_nil,
      fun p _ => rfl, fun p hp => absurd hp (List.not_mem_nil p)⟩
  | succ n ih =>
    intro pos steps q
    rw [dijkstraRay_unfold]
    by_cases h1 : b.board (pos + m) ≠ EMPTY
    · rw [if_pos h1]
      exact ⟨[], by simp, List.nodup_nil, fun p _ => rfl,
        fun p hp => absurd hp (List.not_mem_nil p)⟩
    · rw [if_neg h1]
      push_neg at h1
      by_cases h2 : steps (pos + m) ≠ -1
      · rw [if_pos h2]
        exact ⟨[], by simp, List.nodup_nil, fun p _ => rfl,
          fun p hp => absurd hp (List.not_mem_nil p)⟩
      · rw [if_neg h2]
        push_neg at h2
        obtain ⟨new, hq, hnd, hout, hin⟩ := ih (pos + m)
          (fun j => if j = pos + m then step else steps j) (q ++ [pos + m])
        have hpm_not : pos + m ∉ new := by
          intro hmem
          have := (hin (pos + m) hmem).2.1
          simp at this
          omega
        have hray : rayCells b m (n + 1) pos = (pos + m) :: rayCells b m n (pos + m) := by
          show (if b.board (pos + m) = EMPTY then (pos + m) :: rayCells b m n (pos + m)
            else []) = _
          rw [if_pos h1]
        refine ⟨(pos + m) :: new, by rw [hq]; simp, List.nodup_cons.mpr ⟨hpm_not, hnd⟩, ?_, ?_⟩
        · intro p hp
          have hp1 : p ≠ pos + m := fun he => hp (he ▸ List.mem_cons_self _ _)
          have hp2 : p ∉ new := fun hmem => hp (List.mem_cons_of_mem _ hmem)
          rw [hout p hp2]
          simp [hp1]
        · intro p hp
          rcases List.mem_cons.mp hp with h | h
          · subst h
            refine ⟨?_, h2, h1, by rw [hray]; exact List.mem_cons_self _ _⟩
            rw [hout (pos + m) hpm_not]
            simp
          · have hne : p ≠ pos + m := by
              intro he
              have := (hin p h).2.1
              rw [he] at this
              simp at this
              omega
            refine ⟨(hin p h).1, ?_, (hin p h).2.2.1, ?_⟩
            · have := (hin p h).2.1
              rw [if_neg hne] at this
              exact this
            · rw [hray]
              exact List.mem_cons_of_mem _ (hin p h).2.2.2

theorem dijkstraDirs_fx (b : Board) (step pos : Int) (hstep : 0 ≤ step) :
    ∀ (ms : List Int) (steps : Int → Int) (q : List Int),
      ∃ new : List Int,
        (dijkstraDirs b step pos ms steps q).2 = q ++ new ∧
        new.Nodup ∧
        (∀ p, p ∉ new → (dijkstraDirs b step pos ms steps q).1 p = steps p) ∧
        (∀ p ∈ new, (dijkstraDirs b step pos ms steps q).1 p = step ∧ steps p = -1 ∧
          b.board p = EMPTY ∧ ∃ m ∈ ms, p ∈ rayCells b m 49 pos) := by
  intro ms
  induction ms with
  | nil =>
    intro steps q
    exact ⟨[], by simp only [List.append_nil]; rfl, List.nodup_nil,
      fun p _ => rfl, fun p hp => absurd hp (List.not_mem_nil p)⟩
  | cons m ms ih =>
    intro steps q
    rw [dijkstraDirs_unfold]
    obtain ⟨new1, hq1, hnd1, hout1, hin1⟩ := dijkstraRay_fx b m step hstep 49 pos steps q
    obtain ⟨new2, hq2, hnd2, hout2, hin2⟩ := ih (dijkstraRay b m step 49 pos steps q).1
      (dijkstraRay b m step 49 pos steps q).2
    have hdisj : ∀ p ∈ new1, p ∉ new2 := by
      intro p hp hmem
      have ha := (hin1 p hp).1
      have hb := (hin2 p hmem).2.1
      rw [ha] at hb
      omega
    refine ⟨new1 ++ new2, by rw [hq2, hq1]; simp, ?_, ?_, ?_⟩
    · refine List.Nodup.append hnd1 hnd2 ?_
      intro p hp1 hp2
      exact hdisj p hp1 hp2
    · intro p hp
      have hp1 : p ∉ new1 := fun hmem => hp (List.mem_append_left _ hmem)
      have hp2 : p ∉ new2 := fun hmem => hp (List.mem_append_right _ hmem)
      rw [hout2 p hp2, hout1 p hp1]
    · intro p hp
      rcases List.mem_append.mp hp with h | h
      · refine ⟨?_, (hin1 p h).2.1, (hin1 p h).2.2.1, m, List.mem_cons_self _ _,
          (hin1 p h).2.2.2⟩
        rw [hout2 p (hdisj p h)]
        exact (hin1 p h).1
      · have hp1 : p ∉ new1 := by
          intro hmem
          exact hdisj p hmem h
        refine ⟨(hin2 p h).1, ?_, (hin2 p h).2.2.1, ?_⟩
        · have := (hin2 p h).2.1
          rw [hout1 p hp1] at this
          exact this
        · obtain ⟨m2, hm2, hmem2⟩ := (hin2 p h).2.2.2
          exact ⟨m2, List.mem_cons_of_mem _ hm2, hmem2⟩

theorem dijkstraRay_closes (b : Board) (m step : Int) (hstep : 0 ≤ step) (n : Nat)
    (pos : Int) (steps : Int → Int) (q : List Int) (hcell : b.board (pos + m) = EMPTY) :
    (dijkstraRay b m step (n + 1) pos steps q).1 (pos + m) ≠ -1 := by
  rw [dijkstraRay_unfold]
  rw [if_neg (not_not_intro hcell)]
  by_cases h2 : steps (pos + m) ≠ -1
  · rw [if_pos h2]
    exact h2
  · rw [if_neg h2]
    rcases dijkstraRay_steps_or b m step n (pos + m)
      (fun j => if j = pos + m then step else steps j) (q ++ [pos + m]) (pos + m) with h | h
    · rw [h]
      simp
      omega
    · rw [h]
      omega

theorem dijkstraDirs_mono (b : Board) (step pos : Int) (hstep : 0 ≤ step)
    (ms : List Int) (steps : Int → Int) (q : List Int) (p : Int) (hp : steps p ≠ -1) :
    (dijkstraDirs b step pos ms steps q).1 p ≠ -1 := by
  rcases dijkstraDirs_steps_or b step pos ms steps q p with h | h
  · rw [h]; exact hp
  · rw [h]; omega

theorem dijkstraDirs_closes (b : Board) (step pos : Int) (hstep : 0 ≤ step) :
    ∀ (ms : List Int) (steps : Int → Int) (q : List Int) (m : Int), m ∈ ms →
      b.board (pos + m) = EMPTY →
      (dijkstraDirs b step pos ms steps q).1 (pos + m) ≠ -1 := by
  intro ms
  induction ms with
  | nil => intro steps q m hm; cases hm
  | cons m0 ms ih =>
    intro steps q m hm hcell
    rw [dijkstraDirs_unfold]
    rcases List.mem_cons.mp hm with h | h
    · subst h
      refine dijkstraDirs_mono b step pos hstep ms _ _ _ ?_
      exact dijkstraRay_closes b m step hstep 48 pos steps q hcell
    · exact ih _ _ m h hcell

/-- Invariant of the flood-fill loop: the source is recorded with distance 0;
recorded distances are nonnegative; queued cells are recorded; recorded cells
are the source or Empty; every recorded cell is reachable within its recorded
number of ray moves; processed cells plus queued cells account for every
recorded cell exactly once; every processed (recorded, no longer queued) cell
has all its immediate Empty neighbours recorded; the j-th queued cell's
distance is at most `total_cells + j`; and twice the distance total is at most
`total_cells * (total_cells - 1)`. -/
structure DLoopInv (b : Board) (src : Int) (st : DState) : Prop where
  src0 : st.steps src = 0
  nonneg : ∀ p, st.steps p = -1 ∨ 0 ≤ st.steps p
  qassigned : ∀ p ∈ st.q, st.steps p ≠ -1
  assigned_cells : ∀ p, st.steps p ≠ -1 → p = src ∨ b.board p = EMPTY
  reach : ∀ p, st.steps p ≠ -1 → p ∈ reachListN b src (st.steps p).toNat
  count : st.total_cells + (st.q.length : Int) = (assignedCount st.steps : Int)
  closed : ∀ p, st.steps p ≠ -1 → p ∉ st.q →
    ∀ m ∈ MOVES, b.board (p + m) = EMPTY → st.steps (p + m) ≠ -1
  qbound : ∀ (j : Nat) (p : Int), st.q.get? j = some p →
    st.steps p ≤ st.total_cells + (j : Int)
  steps_sum : 2 * st.total_steps ≤ st.total_cells * (st.total_cells - 1)
  tc_nonneg : 0 ≤ st.total_cells
  ts_nonneg : 0 ≤ st.total_steps

theorem assignedCount_le_25 (S : Int → Int) : assignedCount S ≤ 25 := by
  calc assignedCount S ≤ innerCells.length := List.countP_le_length _
    _ = 25 := innerCells_length

theorem dijkstra_inv_step (b : Board) (src : Int) (hwf : Board.WF b)
    (hsrc : src ∈ innerCells) (st : DState) (hinv : DLoopInv b src st)
    (pos : Int) (rest : List Int) (hq : st.q = pos :: rest) :
    DLoopInv b src ⟨(dijkstraDirs b (st.steps pos + 1) pos MOVES st.steps rest).2,
      (dijkstraDirs b (st.steps pos + 1) pos MOVES st.steps rest).1,
      st.total_cells + 1, st.total_steps + st.steps pos⟩ := by
  have hposq : pos ∈ st.q := by rw [hq]; exact List.mem_cons_self _ _
  have hpos_as : st.steps pos ≠ -1 := hinv.qassigned pos hposq
  have hpos_nn : 0 ≤ st.steps pos := by
    rcases hinv.nonneg pos with h | h
    · exact absurd h hpos_as
    · exact h
  have hstep : (0 : Int) ≤ st.steps pos + 1 := by omega
  obtain ⟨new, hqnew, hnd, hout, hin⟩ :=
    dijkstraDirs_fx b (st.steps pos + 1) pos hstep MOVES st.steps rest
  have hfresh : ∀ p ∈ new, st.steps p = -1 := fun p hp => (hin p hp).2.1
  have hnotnew : ∀ p, st.steps p ≠ -1 → p ∉ new := fun p hp hmem => hp (hfresh p hmem)
  have hSold : ∀ p, st.steps p ≠ -1 →
      (dijkstraDirs b (st.steps pos + 1) pos MOVES st.steps rest).1 p = st.steps p :=
    fun p hp => hout p (hnotnew p hp)
  have hSnotneg1 : ∀ p, st.steps p ≠ -1 →
      (dijkstraDirs b (st.steps pos + 1) pos MOVES st.steps rest).1 p ≠ -1 := by
    intro p hp
    rw [hSold p hp]
    exact hp
  have hSnew : ∀ p ∈ new,
      (dijkstraDirs b (st.steps pos + 1) pos MOVES st.steps rest).1 p =
        st.steps pos + 1 := fun p hp => (hin p hp).1
  have hq0 : st.q.get? 0 = some pos := by rw [hq]; rfl
  have hposbound : st.steps pos ≤ st.total_cells := by
    have := hinv.qbound 0 pos hq0
    simpa using this
  refine ⟨?_, ?_, ?_, ?_, ?_, ?_, ?_, ?_, ?_, ?_, ?_⟩
  · show (dijkstraDirs b (st.steps pos + 1) pos MOVES st.steps rest).1 src = 0
    have hsa : st.steps src ≠ -1 := by rw [hinv.src0]; omega
    rw [hSold src hsa, hinv.src0]
  · intro p
    dsimp only
    by_cases hp : p ∈ new
    · rw [hSnew p hp]; omega
    · rw [hout p hp]
      exact hinv.nonneg p
  · intro p hp
    dsimp only at hp
    show (dijkstraDirs b (st.steps pos + 1) pos MOVES st.steps rest).1 p ≠ -1
    rcases List.mem_append.mp (by
        have : (dijkstraDirs b (st.steps pos + 1) pos MOVES st.steps rest).2 = rest ++ new :=
          hqnew
        rw [this] at hp
        exact hp) with h | h
    · exact hSnotneg1 p (hinv.qassigned p (by rw [hq]; exact List.mem_cons_of_mem _ h))
    · rw [hSnew p h]; omega
  · intro p hp
    dsimp only at hp
    by_cases hmem : p ∈ new
    · exact Or.inr (hin p hmem).2.2.1
    · rw [hout p hmem] at hp
      exact hinv.assigned_cells p hp
  · intro p hp
    dsimp only at hp ⊢
    by_cases hmem : p ∈ new
    · rw [hSnew p hmem]
      have hreach_pos := hinv.reach pos hpos_as
      have hmv : p ∈ movesList b pos := by
        obtain ⟨m, hm, hray⟩ := (hin p hmem).2.2.2
        exact List.mem_flatMap.mpr ⟨m, hm, hray⟩
      have := reachListN_step b src (st.steps pos).toNat pos p hreach_pos hmv
      have hcast : (st.steps pos + 1).toNat = (st.steps pos).toNat + 1 := by omega
      rw [hcast]
      exact this
    · rw [hout p hmem] at hp ⊢
      exact hinv.reach p hp
  · show st.total_cells + 1 +
      (((dijkstraDirs b (st.steps pos + 1) pos MOVES st.steps rest).2).length : Int) = _
    rw [hqnew]
    have hcount : assignedCount (dijkstraDirs b (st.steps pos + 1) pos MOVES st.steps rest).1 =
        assignedCount st.steps + new.length := by
      refine assignedCount_flip_list st.steps _ new hnd ?_ ?_
      · intro p hp
        refine ⟨hwf p (hin p hp).2.2.1, (hin p hp).2.1, ?_⟩
        rw [hSnew p hp]
        omega
      · exact hout
    rw [hcount]
    have := hinv.count
    rw [hq] at this
    simp only [List.length_cons, List.length_append] at this ⊢
    push_cast at this ⊢
    omega
  · intro p hp hpq m hm hcell
    dsimp only at hp hpq
    show (dijkstraDirs b (st.steps pos + 1) pos MOVES st.steps rest).1 (p + m) ≠ -1
    by_cases hppos : p = pos
    · subst hppos
      exact dijkstraDirs_closes b (st.steps p + 1) p hstep MOVES st.steps rest m hm hcell
    · have hpnew : p ∉ new := by
        intro hmem
        apply hpq
        show p ∈ (dijkstraDirs b (st.steps pos + 1) pos MOVES st.steps rest).2
        rw [hqnew]
        exact List.mem_append_right _ hmem
      have hpold : st.steps p ≠ -1 := by
        have := hout p hpnew
        rw [this] at hp
        exact hp
      have hprest : p ∉ rest := by
        intro hmem
        apply hpq
        show p ∈ (dijkstraDirs b (st.steps pos + 1) pos MOVES st.steps rest).2
        rw [hqnew]
        exact List.mem_append_left _ hmem
      have hpoldq : p ∉ st.q := by
        rw [hq]
        intro hmem
        rcases List.mem_cons.mp hmem with h | h
        · exact hppos h
        · exact hprest h
      have hold := hinv.closed p hpold hpoldq m hm hcell
      by_cases hmem2 : p + m ∈ new
      · rw [hSnew _ hmem2]; omega
      · rw [hout _ hmem2]; exact hold
  · intro j p hget
    dsimp only at hget
    show (dijkstraDirs b (st.steps pos + 1) pos MOVES st.steps rest).1 p ≤
      st.total_cells + 1 + (j : Int)
    rw [hqnew] at hget
    by_cases hj : j < rest.length
    · rw [List.get?_append hj] at hget
      have hprest : p ∈ rest := List.get?_mem hget
      have hpold : st.steps p ≠ -1 :=
        hinv.qassigned p (by rw [hq]; exact List.mem_cons_of_mem _ hprest)
      rw [hSold p hpold]
      have := hinv.qbound (j + 1) p (by rw [hq, List.get?_cons_succ]; exact hget)
      push_cast at this ⊢
      omega
    · push_neg at hj
      rw [List.get?_append_right hj] at hget
      have hpnew : p ∈ new := List.get?_mem hget
      rw [hSnew p hpnew]
      omega
  · show 2 * (st.total_steps + st.steps pos) ≤
      (st.total_cells + 1) * (st.total_cells + 1 - 1)
    have := hinv.steps_sum
    nlinarith [hposbound, hinv.tc_nonneg]
  · show (0 : Int) ≤ st.total_cells + 1
    have := hinv.tc_nonneg
    omega
  · show (0 : Int) ≤ st.total_steps + st.steps pos
    have := hinv.ts_nonneg
    omega

theorem dijkstraLoop_unfold_cons (b : Board) (n : Nat) (st : DState) (pos : Int)
    (rest : List Int) (hq : st.q = pos :: rest) :
    dijkstraLoop b (n + 1) st =
      dijkstraLoop b n ⟨(dijkstraDirs b (st.steps pos + 1) pos MOVES st.steps rest).2,
        (dijkstraDirs b (st.steps pos + 1) pos MOVES st.steps rest).1,
        st.total_cells + 1, st.total_steps + st.steps pos⟩ := by
  show (match st.q with
    | [] => st
    | pos :: rest =>
      dijkstraLoop b n ⟨(dijkstraDirs b (st.steps pos + 1) pos MOVES st.steps rest).2,
        (dijkstraDirs b (st.steps pos + 1) pos MOVES st.steps rest).1,
        st.total_cells + 1, st.total_steps + st.steps pos⟩) = _
  rw [hq]

theorem dijkstraLoop_nil (b : Board) : ∀ (fuel : Nat) (st : DState), st.q = [] →
    dijkstraLoop b fuel st = st := by
  intro fuel st hq
  cases fuel with
  | zero => rfl
  | succ n =>
    show (match st.q with
      | [] => st
      | pos :: rest =>
        dijkstraLoop b n ⟨(dijkstraDirs b (st.steps pos + 1) pos MOVES st.steps rest).2,
          (dijkstraDirs b (st.steps pos + 1) pos MOVES st.steps rest).1,
          st.total_cells + 1, st.total_steps + st.steps pos⟩) = st
    rw [hq]

theorem dijkstraLoop_inv (b : Board) (src : Int) (hwf : Board.WF b)
    (hsrc : src ∈ innerCells) :
    ∀ (fuel : Nat) (st : DState), DLoopInv b src st →
      DLoopInv b src (dijkstraLoop b fuel st) := by
  intro fuel
  induction fuel with
  | zero =>
    intro st hinv
    have h0 : dijkstraLoop b 0 st = st := rfl
    rw [h0]
    exact hinv
  | succ n ih =>
    intro st hinv
    match hqe : st.q with
    | [] =>
      rw [dijkstraLoop_nil b (n + 1) st hqe]
      exact hinv
    | pos :: rest =>
      rw [dijkstraLoop_unfold_cons b n st pos rest hqe]
      exact ih _ (dijkstra_inv_step b src hwf hsrc st hinv pos rest hqe)

theorem dijkstraLoop_drains (b : Board) (src : Int) (hwf : Board.WF b)
    (hsrc : src ∈ innerCells) :
    ∀ (fuel : Nat) (st : DState), DLoopInv b src st →
      (26 : Int) ≤ st.total_cells + fuel → (dijkstraLoop b fuel st).q = [] := by
  intro fuel
  induction fuel with
  | zero =>
    intro st hinv hfuel
    exfalso
    have h1 := hinv.count
    have h2 : assignedCount st.steps ≤ 25 := assignedCount_le_25 _
    have h3 : (0 : Int) ≤ (st.q.length : Int) := by positivity
    push_cast at h1 hfuel
    omega
  | succ n ih =>
    intro st hinv hfuel
    match hqe : st.q with
    | [] =>
      rw [dijkstraLoop_nil b (n + 1) st hqe]
      exact hqe
    | pos :: rest =>
      rw [dijkstraLoop_unfold_cons b n st pos rest hqe]
      refine ih _ (dijkstra_inv_step b src hwf hsrc st hinv pos rest hqe) ?_
      show (26 : Int) ≤ st.total_cells + 1 + (n : Int)
      push_cast at hfuel
      omega

theorem dijkstraRun_inv (b : Board) (player : Nat) (hwf : Board.WF b)
    (hsrc : (if player = P1 then b.p1 else b.p2) ∈ innerCells) :
    DLoopInv b (if player = P1 then b.p1 else b.p2) (dijkstraRun b player) ∧
      (dijkstraRun b player).q = [] := by
  have hinit : DLoopInv b (if player = P1 then b.p1 else b.p2)
      ⟨[if player = P1 then b.p1 else b.p2],
       fun j => if j = (if player = P1 then b.p1 else b.p2) then 0 else -1, 0, 0⟩ := by
    refine ⟨?_, ?_, ?_, ?_, ?_, ?_, ?_, ?_, ?_, ?_, ?_⟩
    · show (if (if player = P1 then b.p1 else b.p2) = (if player = P1 then b.p1 else b.p2)
        then (0 : Int) else -1) = 0
      rw [if_pos rfl]
    · intro p
      dsimp only
      split <;> omega
    · intro p hp
      dsimp only at hp ⊢
      rw [List.mem_singleton.mp hp, if_pos rfl]
      omega
    · intro p hp
      dsimp only at hp
      by_cases he : p = (if player = P1 then b.p1 else b.p2)
      · exact Or.inl he
      · rw [if_neg he] at hp
        omega
    · intro p hp
      dsimp only at hp ⊢
      by_cases he : p = (if player = P1 then b.p1 else b.p2)
      · rw [he, if_pos rfl]
        show (if player = P1 then b.p1 else b.p2) ∈ reachListN b _ (Int.toNat 0)
        exact List.mem_singleton.mpr rfl
      · rw [if_neg he] at hp
        omega
    · show (0 : Int) + (([if player = P1 then b.p1 else b.p2].length : Nat) : Int) = _
      have hone : assignedCount
          (fun j => if j = (if player = P1 then b.p1 else b.p2) then (0 : Int) else -1) = 1 := by
        have := countP_flip_eq (if player = P1 then b.p1 else b.p2)
          (fun _ => false)
          (fun i => !((if i = (if player = P1 then b.p1 else b.p2) then (0 : Int) else -1)
            == -1))
          rfl (by simp) (fun i hi => by simp [hi]) innerCells innerCells_nodup hsrc
        unfold assignedCount
        rw [this, countP_false_eq_zero]
      rw [hone]
      simp
    · intro p hp hpq
      dsimp only at hp hpq
      exfalso
      apply hpq
      by_cases he : p = (if player = P1 then b.p1 else b.p2)
      · rw [he]
        exact List.mem_singleton.mpr rfl
      · rw [if_neg he] at hp
        omega
    · intro j p hget
      dsimp only at hget ⊢
      match j with
      | 0 =>
        have heq : (if player = P1 then b.p1 else b.p2) = p := by
          simpa using hget
        rw [← heq, if_pos rfl]
        omega
      | j + 1 => simp at hget
    · show 2 * (0 : Int) ≤ 0 * (0 - 1)
      omega
    · exact le_rfl
    · exact le_rfl
  have hrun : dijkstraRun b player =
      dijkstraLoop b 50 ⟨[if player = P1 then b.p1 else b.p2],
        fun j => if j = (if player = P1 then b.p1 else b.p2) then 0 else -1, 0, 0⟩ := rfl
  rw [hrun]
  constructor
  · exact dijkstraLoop_inv b _ hwf hsrc 50 _ hinit
  · exact dijkstraLoop_drains b _ hwf hsrc 50 _ hinit (by norm_num)

theorem closure_ray (b : Board) (S : Int → Int)
    (hcl : ∀ p, S p ≠ -1 → ∀ m ∈ MOVES, b.board (p + m) = EMPTY → S (p + m) ≠ -1)
    (m : Int) (hm : m ∈ MOVES) :
    ∀ (fuel : Nat) (pos : Int), S pos ≠ -1 → ∀ c ∈ rayCells b m fuel pos, S c ≠ -1 := by
  intro fuel
  induction fuel with
  | zero => intro pos _ c hc; cases hc
  | succ n ih =>
    intro pos hpos c hc
    by_cases hcell : b.board (pos + m) = EMPTY
    · have hray : rayCells b m (n + 1) pos = (pos + m) :: rayCells b m n (pos + m) := by
        show (if b.board (pos + m) = EMPTY then (pos + m) :: rayCells b m n (pos + m)
          else []) = _
        rw [if_pos hcell]
      rw [hray] at hc
      have hnext : S (pos + m) ≠ -1 := hcl pos hpos m hm hcell
      rcases List.mem_cons.mp hc with h | h
      · rw [h]; exact hnext
      · exact ih (pos + m) hnext c h
    · have hray : rayCells b m (n + 1) pos = [] := by
        show (if b.board (pos + m) = EMPTY then (pos + m) :: rayCells b m n (pos + m)
          else []) = _
        rw [if_neg hcell]
      rw [hray] at hc
      cases hc

theorem closure_coverage (b : Board) (src : Int) (S : Int → Int) (hsrc0 : S src = 0)
    (hcl : ∀ p, S p ≠ -1 → ∀ m ∈ MOVES, b.board (p + m) = EMPTY → S (p + m) ≠ -1) :
    ∀ (n : Nat), ∀ c ∈ reachListN b src n, S c ≠ -1 := by
  intro n
  induction n with
  | zero =>
    intro c hc
    rw [List.mem_singleton.mp hc, hsrc0]
    omega
  | succ n ih =>
    intro c hc
    unfold reachListN at hc
    rcases List.mem_append.mp hc with h | h
    · exact ih c h
    · obtain ⟨u, hu, hcu⟩ := List.mem_flatMap.mp h
      obtain ⟨m, hm, hray⟩ := List.mem_flatMap.mp hcu
      exact closure_ray b S hcl m hm 49 u (ih u hu) c hray

/-! Claim C2: flood-fill properties — what holds and what fails. -/

/-- C2 counterexample: on `cexBoard` (P1 at index 8; cells 12, 16 and 36
blocked), the flood fill records distance 3 for cell 32, although cell 32 is
reachable from 8 within 2 ray moves (and not within 1), so its minimum number
of ray moves is 2: the recorded distance is NOT the minimum, because a ray
stops at the first already-discovered cell and skips the cells beyond it. -/
theorem dijkstra_distance_not_minimal :
    (if P1 = P1 then cexBoard.p1 else cexBoard.p2) = 8 ∧
      cexBoard.board 32 = EMPTY ∧
      (dijkstraRun cexBoard P1).steps 32 = 3 ∧
      32 ∈ reachListN cexBoard 8 2 ∧
      32 ∉ reachListN cexBoard 8 1 :=
  ⟨by decide, by decide, by decide, by decide, by decide⟩

/-- C2 (amended): on a well-formed board with both players placed, the flood
fill of DijkstraScorer::dijkstra drains its queue; each discovered cell is
processed exactly once (the number of pops equals the number of distinct
assigned cells); the origin is recorded with distance 0; every recorded
distance is achievable (the cell is reachable within that many ray moves, so
the recorded distance is at least the minimum); every reachable cell is
discovered; and the returned value is the cell count times SCORE_PER_CELL
minus the sum of the recorded (not necessarily minimal) distances. -/
theorem dijkstra_floodfill_properties (b : Board) (player : Nat)
    (hwf : Board.WF b) (hbp : BothPlaced b) :
    ((dijkstraRun b player).q = [] ∧
     (dijkstraRun b player).total_cells =
        (assignedCount (dijkstraRun b player).steps : Int) ∧
     (dijkstraRun b player).steps (if player = P1 then b.p1 else b.p2) = 0 ∧
     (∀ p, (dijkstraRun b player).steps p ≠ -1 →
        p ∈ reachListN b (if player = P1 then b.p1 else b.p2)
          ((dijkstraRun b player).steps p).toNat) ∧
     (∀ (n : Nat), ∀ c ∈ reachListN b (if player = P1 then b.p1 else b.p2) n,
        (dijkstraRun b player).steps c ≠ -1) ∧
     DijkstraScorer.dijkstra b player =
       (dijkstraRun b player).total_cells * SCORE_PER_CELL -
         (dijkstraRun b player).total_steps) := by
  have hsrc : (if player = P1 then b.p1 else b.p2) ∈ innerCells := by
    obtain ⟨hp1, hp2, _, _⟩ := hbp
    split <;> assumption
  obtain ⟨hinv, hdrain⟩ := dijkstraRun_inv b player hwf hsrc
  refine ⟨hdrain, ?_, hinv.src0, hinv.reach, ?_, rfl⟩
  · have := hinv.count
    rw [hdrain] at this
    simpa using this
  · intro n c hc
    refine closure_coverage b _ (dijkstraRun b player).steps hinv.src0 ?_ n c hc
    intro p hp m hm hcell
    refine hinv.closed p hp ?_ m hm hcell
    rw [hdrain]
    exact List.not_mem_nil p

/-- Witness for C2 (amended) at a concrete board: queue drained, pop count
equals assigned count, origin at distance 0. -/
theorem dijkstra_floodfill_properties_witness :
    BothPlaced cexBoard ∧
      (dijkstraRun cexBoard P1).q = [] ∧
      (dijkstraRun cexBoard P1).total_cells =
        (assignedCount (dijkstraRun cexBoard P1).steps : Int) ∧
      (dijkstraRun cexBoard P1).steps (if P1 = P1 then cexBoard.p1 else cexBoard.p2) = 0 :=
  ⟨by decide,
    (dijkstra_floodfill_properties cexBoard P1
      (WF_play _ 4 0 P2 (WF_play _ 1 1 P2 (WF_play _ 0 4 P2
        (WF_play _ 0 0 P1 WF_init (by decide)) (by decide)) (by decide)) (by decide))
      (by decide)).1,
    (dijkstra_floodfill_properties cexBoard P1
      (WF_play _ 4 0 P2 (WF_play _ 1 1 P2 (WF_play _ 0 4 P2
        (WF_play _ 0 0 P1 WF_init (by decide)) (by decide)) (by decide)) (by decide))
      (by decide)).2.1,
    (dijkstra_floodfill_properties cexBoard P1
      (WF_play _ 4 0 P2 (WF_play _ 1 1 P2 (WF_play _ 0 4 P2
        (WF_play _ 0 0 P1 WF_init (by decide)) (by decide)) (by decide)) (by decide))
      (by decide)).2.2.1⟩

/-! Claim C10: the origin cell is counted with distance 0 and the flood-fill
value is at least SCORE_PER_CELL, with equality for an isolated token. -/

theorem hasLost_neighbors_blocked (b : Board) (pos : Int) (hpos : pos ≠ 0)
    (h : b.hasLost pos = true) : ∀ m ∈ MOVES, b.board (pos + m) ≠ EMPTY := by
  unfold Board.hasLost at h
  rw [if_neg hpos] at h
  by_cases hOr : b.board (pos + 1) = 0 ∨ b.board (pos - 1) = 0 ∨ b.board (pos + 7) = 0 ∨
      b.board (pos - 7) = 0 ∨ b.board (pos + 6) = 0 ∨ b.board (pos - 6) = 0 ∨
      b.board (pos + 8) = 0 ∨ b.board (pos - 8) = 0
  · rw [if_pos hOr] at h
    exact absurd h (by simp)
  · push_neg at hOr
    obtain ⟨h1, h2, h3, h4, h5, h6, h7, h8⟩ := hOr
    have hsub : ∀ k : Int, b.board (pos + -k) = b.board (pos - k) := by
      intro k
      rw [Int.sub_eq_add_neg]
    intro m hm
    fin_cases hm
    · exact h1
    · rw [hsub 1]; exact h2
    · exact h3
    · rw [hsub 7]; exact h4
    · exact h5
    · rw [hsub 6]; exact h6
    · exact h7
    · rw [hsub 8]; exact h8

theorem dijkstraRay_blocked (b : Board) (m step pos : Int) (steps : Int → Int)
    (q : List Int) (h : b.board (pos + m) ≠ EMPTY) :
    dijkstraRay b m step 49 pos steps q = (steps, q) := by
  rw [show (49 : Nat) = 48 + 1 from rfl, dijkstraRay_unfold, if_pos h]

theorem dijkstraDirs_blocked (b : Board) (step pos : Int) :
    ∀ (ms : List Int), (∀ m ∈ ms, b.board (pos + m) ≠ EMPTY) →
      ∀ (steps : Int → Int) (q : List Int),
        dijkstraDirs b step pos ms steps q = (steps, q) := by
  intro ms
  induction ms with
  | nil => intro _ steps q; rfl
  | cons m ms ih =>
    intro hnb steps q
    rw [dijkstraDirs_unfold,
      dijkstraRay_blocked b m step pos steps q (hnb m (List.mem_cons_self _ _))]
    exact ih (fun m2 hm2 => hnb m2 (List.mem_cons_of_mem _ hm2)) steps q

theorem dijkstra_isolated (b : Board) (player : Nat)
    (hpos0 : (if player = P1 then b.p1 else b.p2) ≠ 0)
    (hlost : b.hasLost (if player = P1 then b.p1 else b.p2) = true) :
    DijkstraScorer.dijkstra b player = SCORE_PER_CELL := by
  have hnb := hasLost_neighbors_blocked b _ hpos0 hlost
  have hrun : dijkstraRun b player =
      dijkstraLoop b 50 ⟨[if player = P1 then b.p1 else b.p2],
        fun j => if j = (if player = P1 then b.p1 else b.p2) then 0 else -1, 0, 0⟩ := rfl
  have hs0 : (fun j => if j = (if player = P1 then b.p1 else b.p2) then (0 : Int) else -1)
      (if player = P1 then b.p1 else b.p2) = 0 := if_pos rfl
  have h1 : dijkstraLoop b 50 ⟨[if player = P1 then b.p1 else b.p2],
      fun j => if j = (if player = P1 then b.p1 else b.p2) then 0 else -1, 0, 0⟩ =
      ⟨[], fun j => if j = (if player = P1 then b.p1 else b.p2) then 0 else -1, 1, 0⟩ := by
    rw [dijkstraLoop_unfold_cons b 49 _ (if player = P1 then b.p1 else b.p2) [] rfl]
    have h2 := dijkstraDirs_blocked b
      ((fun j => if j = (if player = P1 then b.p1 else b.p2) then (0 : Int) else -1)
        (if player = P1 then b.p1 else b.p2) + 1)
      (if player = P1 then b.p1 else b.p2) MOVES hnb
      (fun j => if j = (if player = P1 then b.p1 else b.p2) then 0 else -1) []
    rw [h2]
    rw [dijkstraLoop_nil b 49 _ rfl]
    simp
  unfold DijkstraScorer.dijkstra
  rw [hrun, h1]
  show (1 : Int) * SCORE_PER_CELL - 0 = SCORE_PER_CELL
  ring

/-- C10: the flood fill counts the player's own occupied starting cell with
distance 0 among the discovered cells, so the flood-fill value is always at
least SCORE_PER_CELL = 16, and equals exactly 16 when the token has no legal
move at all (no reachable Empty cell); hence getScore between two fully
isolated players is 0, not a difference of genuine mobilities. -/
theorem dijkstra_counts_origin (b : Board) (player : Nat)
    (hwf : Board.WF b) (hbp : BothPlaced b) :
    ((dijkstraRun b player).steps (if player = P1 then b.p1 else b.p2) = 0 ∧
     1 ≤ (dijkstraRun b player).total_cells ∧
     SCORE_PER_CELL ≤ DijkstraScorer.dijkstra b player ∧
     (b.hasLost (if player = P1 then b.p1 else b.p2) = true →
       DijkstraScorer.dijkstra b player = SCORE_PER_CELL) ∧
     (b.hasLost b.p1 = true → b.hasLost b.p2 = true →
       DijkstraScorer.getScore b player = 0)) := by
  obtain ⟨hp1, hp2, hm1, hm2⟩ := hbp
  have hsrc : (if player = P1 then b.p1 else b.p2) ∈ innerCells := by
    split <;> assumption
  obtain ⟨hinv, hdrain⟩ := dijkstraRun_inv b player hwf hsrc
  have hcount : (dijkstraRun b player).total_cells =
      (assignedCount (dijkstraRun b player).steps : Int) := by
    have := hinv.count
    rw [hdrain] at this
    simpa using this
  have hasg1 : 1 ≤ assignedCount (dijkstraRun b player).steps := by
    refine List.countP_pos.mpr ⟨if player = P1 then b.p1 else b.p2, hsrc, ?_⟩
    rw [hinv.src0]
    decide
  have htc1 : 1 ≤ (dijkstraRun b player).total_cells := by
    rw [hcount]
    exact_mod_cast hasg1
  have htc25 : (dijkstraRun b player).total_cells ≤ 25 := by
    rw [hcount]
    exact_mod_cast assignedCount_le_25 _
  have hp10 : b.p1 ≠ 0 := by
    intro h
    rw [h] at hp1
    exact absurd hp1 (by decide)
  have hp20 : b.p2 ≠ 0 := by
    intro h
    rw [h] at hp2
    exact absurd hp2 (by decide)
  have hpos0 : (if player = P1 then b.p1 else b.p2) ≠ 0 := by
    split <;> assumption
  refine ⟨hinv.src0, htc1, ?_, dijkstra_isolated b player hpos0, ?_⟩
  · have hsum := hinv.steps_sum
    unfold DijkstraScorer.dijkstra SCORE_PER_CELL
    nlinarith [mul_nonneg
      (by omega : (0 : Int) ≤ (dijkstraRun b player).total_cells - 1)
      (by omega : (0 : Int) ≤ 32 - (dijkstraRun b player).total_cells)]
  · intro hl1 hl2
    have hplayer : DijkstraScorer.dijkstra b player = SCORE_PER_CELL :=
      dijkstra_isolated b player hpos0 (by split <;> assumption)
    have hopp : DijkstraScorer.dijkstra b (OPPONENT player) = SCORE_PER_CELL := by
      refine dijkstra_isolated b (OPPONENT player) ?_ ?_
      · unfold OPPONENT
        by_cases hpl : player = P1
        · rw [if_pos hpl]
          show (if P2 = P1 then b.p1 else b.p2) ≠ 0
          rw [if_neg (by decide)]
          exact hp20
        · rw [if_neg hpl]
          show (if P1 = P1 then b.p1 else b.p2) ≠ 0
          rw [if_pos rfl]
          exact hp10
      · unfold OPPONENT
        by_cases hpl : player = P1
        · rw [if_pos hpl]
          show b.hasLost (if P2 = P1 then b.p1 else b.p2) = true
          rw [if_neg (by decide)]
          exact hl2
        · rw [if_neg hpl]
          show b.hasLost (if P1 = P1 then b.p1 else b.p2) = true
          rw [if_pos rfl]
          exact hl1
    unfold DijkstraScorer.getScore
    rw [hplayer, hopp]
    ring

/-- Witness for C10 at concrete boards: a live board and a fully isolated
token. -/
theorem dijkstra_counts_origin_witness :
    BothPlaced cexBoard ∧
      (dijkstraRun cexBoard P1).steps (if P1 = P1 then cexBoard.p1 else cexBoard.p2) = 0 ∧
      1 ≤ (dijkstraRun cexBoard P1).total_cells ∧
      SCORE_PER_CELL ≤ DijkstraScorer.dijkstra cexBoard P1 :=
  ⟨by decide,
    (dijkstra_counts_origin cexBoard P1
      (WF_play _ 4 0 P2 (WF_play _ 1 1 P2 (WF_play _ 0 4 P2
        (WF_play _ 0 0 P1 WF_init (by decide)) (by decide)) (by decide)) (by decide))
      (by decide)).1,
    (dijkstra_counts_origin cexBoard P1
      (WF_play _ 4 0 P2 (WF_play _ 1 1 P2 (WF_play _ 0 4 P2
        (WF_play _ 0 0 P1 WF_init (by decide)) (by decide)) (by decide)) (by decide))
      (by decide)).2.1,
    (dijkstra_counts_origin cexBoard P1
      (WF_play _ 4 0 P2 (WF_play _ 1 1 P2 (WF_play _ 0 4 P2
        (WF_play _ 0 0 P1 WF_init (by decide)) (by decide)) (by decide)) (by decide))
      (by decide)).2.2.1⟩
